import Mathlib

/-!
Shallow embedding of the bank-statement ingestion pipeline of the
Expense-tracker repository: the field normalizers (date, amount), the
free-text table parser of the main-thread parser service and of the
parsing worker, the CSV/XLSX header mapper and row mapper, the
categorization engine, the identity assigner, the worker-based batch
orchestrator, and the category-deletion cascade of the database
service.

JavaScript strings are modelled as Lean strings (code points), numbers
as exact rationals, and null/undefined as Option.  Host behaviours the
code delegates to the platform (the free-form Date.parse fallback, the
SHA-1 digest, the rendering of a JS number inside a template string)
are taken as explicit function parameters of the definitions that use
them.
-/

namespace ET

/-- Whitespace test used for the JS \s class, String.prototype.trim and
parseFloat leading-space skipping (ASCII whitespace; all inputs of
interest are ASCII apart from the rupee sign). -/
def isWs (c : Char) : Bool := c.isWhitespace

/-- JS String.prototype.toLowerCase, restricted to ASCII case mapping. -/
def jsToLower (s : String) : String := String.mk (s.data.map Char.toLower)

/-- Drop trailing whitespace of a character list. -/
def dropTrailingWs (l : List Char) : List Char := (l.reverse.dropWhile isWs).reverse

/-- JS String.prototype.trim. -/
def jsTrim (s : String) : String := String.mk (dropTrailingWs (s.data.dropWhile isWs))

/-- JS String.prototype.substring s start stop (for start ≤ stop), with
out-of-range indices clamped to the string length. -/
def jsSubstring (s : String) (start stop : Nat) : String :=
  String.mk ((s.data.drop start).take (stop - start))

/-- Does the second list start with the first one? -/
def listStartsWith : List Char → List Char → Bool
  | [], _ => true
  | _ :: _, [] => false
  | a :: as, b :: bs => a == b && listStartsWith as bs

/-- JS String.prototype.indexOf: position of the first occurrence of
pat in s, none when absent. -/
def jsIndexOf (s pat : String) : Option Nat :=
  (List.range (s.data.length + 1)).find? (fun i => listStartsWith pat.data (s.data.drop i))

/-- JS String.prototype.includes. -/
def jsIncludes (s pat : String) : Bool := (jsIndexOf s pat).isSome

/-- Worker for jsCollapseWs; the flag records whether the previous
character was whitespace, so each whitespace run emits one space. -/
def collapseWsAux : Bool → List Char → List Char
  | _, [] => []
  | prevWs, c :: cs =>
    if isWs c then
      if prevWs then collapseWsAux true cs else ' ' :: collapseWsAux true cs
    else c :: collapseWsAux false cs

/-- JS replace of every whitespace run by one space (the \s+ to single
space substitution both parsers apply to assembled descriptions). -/
def jsCollapseWs (s : String) : String := String.mk (collapseWsAux false s.data)

/-- JS Array.prototype.join with a single space. -/
def joinSpace : List String → String
  | [] => ""
  | [s] => s
  | s :: rest => s ++ " " ++ joinSpace rest

/-- Numeric value of a decimal digit character. -/
def digitVal (c : Char) : Nat := c.toNat - '0'.toNat

/-- Value of a list of decimal digit characters (JS parseInt on an
all-digits numeral, as produced by the strict date regex groups). -/
def natOfDigits (l : List Char) : Nat := l.foldl (fun n c => n * 10 + digitVal c) 0

/-- Grab a maximal run of decimal digits: value, digit count, rest. -/
def grabDigits : List Char → Nat × Nat × List Char
  | [] => (0, 0, [])
  | c :: cs =>
    if c.isDigit then
      match grabDigits cs with
      | (v, n, rest) => (digitVal c * 10 ^ n + v, n + 1, rest)
    else (0, 0, c :: cs)

/-- Exponent part of a JS float literal after the e or E: an optional
sign and digits; a malformed exponent is ignored (exponent 0), as JS
parseFloat backtracks past an e that is not followed by digits. -/
def grabExp : List Char → Int
  | '+' :: cs => (match grabDigits cs with | (v, n, _) => if n = 0 then 0 else (v : Int))
  | '-' :: cs => (match grabDigits cs with | (v, n, _) => if n = 0 then 0 else -(v : Int))
  | cs => (match grabDigits cs with | (v, n, _) => if n = 0 then 0 else (v : Int))

/-- JS parseFloat on this model: longest numeric prefix after leading
whitespace, read as an exact rational (none for NaN).  IEEE rounding
and the Infinity literal are outside the rational model; no input in
the claims reaches either. -/
def jsParseFloat (s : String) : Option ℚ :=
  let l := s.data.dropWhile isWs
  let sgn : Int := match l with | '-' :: _ => -1 | _ => 1
  let l1 : List Char := match l with
    | '-' :: r => r
    | '+' :: r => r
    | _ => l
  match grabDigits l1 with
  | (ip, ic, l2) =>
    let fracPart : Nat × Nat × List Char := match l2 with
      | '.' :: r => grabDigits r
      | _ => (0, 0, l2)
    match fracPart with
    | (fp, fc, l3) =>
      if ic = 0 ∧ fc = 0 then none
      else
        let ex : Int := match l3 with
          | 'e' :: r => grabExp r
          | 'E' :: r => grabExp r
          | _ => 0
        let num : Int := sgn * ((ip : Int) * 10 ^ fc + (fp : Int))
        if 0 ≤ ex then some (mkRat (num * 10 ^ ex.toNat) (10 ^ fc))
        else some (mkRat num (10 ^ fc * 10 ^ (-ex).toNat))

/-- JS Math.abs on the rational model. -/
def jsAbs (q : ℚ) : ℚ := if q < 0 then -q else q

/-- Remove every occurrence of the given characters (a JS global
character-class replace with the empty string). -/
def removeChars (bad : List Char) (s : String) : String :=
  String.mk (s.data.filter (fun c => !(bad.contains c)))

/-- JS replace of the anchored case-insensitive regex matching one or
more whitespace characters followed by cr or dr at the end of the
string, with the empty string. -/
def stripCrDr (s : String) : String :=
  match s.data.reverse with
  | r :: x :: rest =>
    if (r == 'r' || r == 'R') && (x == 'c' || x == 'C' || x == 'd' || x == 'D')
        && (match rest with | w :: _ => isWs w | [] => false) then
      String.mk ((rest.dropWhile isWs).reverse)
    else s
  | _ => s

/-- normalizeAmount of the main-thread parser service: reject empty
input, strip the rupee sign and commas and a whitespace-preceded
trailing cr/dr suffix, reject an empty or lone-minus remainder, parse
as a float and return the absolute value. -/
def normalizeAmount (s : String) : Option ℚ :=
  if s = "" then none
  else
    let cleanedStr := stripCrDr (removeChars ['₹', ','] (jsTrim s))
    if cleanedStr = "" ∨ cleanedStr = "-" then none
    else match jsParseFloat cleanedStr with
      | none => none
      | some q => some (jsAbs q)

/-- normalizeAmount of the parsing worker, string branch.  In the
worker source the character class of the currency-stripping regex
holds the bytes c3 a2 e2 80 9a c2 b9, i.e. the three characters
U+00E2, U+201A, U+00B9 (a mojibake rendering of the rupee sign), not
the rupee sign U+20B9 itself, so the worker does not strip an actual
rupee sign. -/
def workerNormalizeAmount (s : String) : Option ℚ :=
  let cleanedStr := stripCrDr (removeChars ['â', '‚', '¹', ','] (jsTrim s))
  if cleanedStr = "" ∨ cleanedStr = "-" then none
  else match jsParseFloat cleanedStr with
    | none => none
    | some q => some (jsAbs q)

/-- A possibly-absent row cell fed to normalizeAmount: the JS functions
return null on undefined input. -/
def normalizeAmountOpt (o : Option String) : Option ℚ :=
  match o with
  | none => none
  | some s => normalizeAmount s

/-- A possibly-absent row cell fed to the worker normalizeAmount. -/
def workerNormalizeAmountOpt (o : Option String) : Option ℚ :=
  match o with
  | none => none
  | some s => workerNormalizeAmount s

/-- Separator class of the strict date regex. -/
def isSep (c : Char) : Bool := c == '.' || c == '/' || c == '-'

/-- Match of the strict date regex (anchored: 1-2 digits, separator,
1-2 digits, separator, 2-4 digits).  Returns the three numeral
values. -/
def matchStrictDate (s : String) : Option (Nat × Nat × Nat) :=
  let l := s.data
  let dRun := l.takeWhile Char.isDigit
  let r1 := l.drop dRun.length
  if dRun.length = 0 ∨ dRun.length > 2 then none
  else match r1 with
    | s1 :: r2 =>
      if !isSep s1 then none
      else
        let mRun := r2.takeWhile Char.isDigit
        let r3 := r2.drop mRun.length
        if mRun.length = 0 ∨ mRun.length > 2 then none
        else match r3 with
          | s2 :: r4 =>
            if !isSep s2 then none
            else
              let yRun := r4.takeWhile Char.isDigit
              let r5 := r4.drop yRun.length
              if yRun.length < 2 ∨ yRun.length > 4 ∨ r5 ≠ [] then none
              else some (natOfDigits dRun, natOfDigits mRun, natOfDigits yRun)
          | [] => none
    | [] => none

/-- Gregorian leap-year test. -/
def isLeap (y : Nat) : Bool := y % 4 == 0 && (y % 100 != 0 || y % 400 == 0)

/-- Length of a month. -/
def daysInMonth (y m : Nat) : Nat :=
  if m = 2 then (if isLeap y then 29 else 28)
  else if m = 4 ∨ m = 6 ∨ m = 9 ∨ m = 11 then 30
  else 31

/-- JS Date.UTC day-of-month overflow normalization for month 1-12 and
day 1-31: a day count past the end of the month rolls into the
following month. -/
def normYMD (y m d : Nat) : Nat × Nat × Nat :=
  let dim := daysInMonth y m
  if d ≤ dim then (y, m, d)
  else if m ≥ 12 then (y + 1, 1, d - dim)
  else (y, m + 1, d - dim)

/-- Zero-padded two-digit numeral. -/
def pad2 (n : Nat) : String := if n < 10 then "0" ++ toString n else toString n

/-- Date part of toISOString of the UTC timestamp Date.UTC y (m-1) d,
for years in 1901..9999. -/
def isoOfYMD (y m d : Nat) : String :=
  match normYMD y m d with
  | (y2, m2, d2) => toString y2 ++ "-" ++ pad2 m2 ++ "-" ++ pad2 d2

/-- JS replace of the first digits-run followed by an ordinal suffix
st, nd, rd or th with the digits alone. -/
def stripOrdinalAux : List Char → List Char
  | [] => []
  | c :: cs =>
    if c.isDigit then
      let run := c :: cs.takeWhile Char.isDigit
      let rest := cs.dropWhile Char.isDigit
      match rest with
      | 's' :: 't' :: r => run ++ r
      | 'n' :: 'd' :: r => run ++ r
      | 'r' :: 'd' :: r => run ++ r
      | 't' :: 'h' :: r => run ++ r
      | _ => run ++ stripOrdinalAux rest
    else c :: stripOrdinalAux cs
termination_by l => l.length
decreasing_by
  · simp only [List.length_cons]
    exact Nat.lt_succ_of_le ((List.dropWhile_suffix Char.isDigit).sublist.length_le)
  · simp [Nat.lt_succ_self]

/-- Ordinal suffix stripping on strings. -/
def stripOrdinal (s : String) : String := String.mk (stripOrdinalAux s.data)

/-- Two-digit-year promotion: parsed year values below 100 gain
2000. -/
def promoteYear (y : Nat) : Nat := if y < 100 then y + 2000 else y

/-- Day/month swap recovering US-style dates: swap exactly when the
parsed month exceeds 12 and the parsed day is at most 12. -/
def swapDM (d m : Nat) : Nat × Nat := if m > 12 ∧ d ≤ 12 then (m, d) else (d, m)

/-- Calendar bounds of the strict branch. -/
def strictBoundsOk (day month year : Nat) : Prop :=
  day > 0 ∧ day ≤ 31 ∧ month > 0 ∧ month ≤ 12 ∧ year > 1900

instance (day month year : Nat) : Decidable (strictBoundsOk day month year) := by
  unfold strictBoundsOk; infer_instance

/-- normalizeDate of the parser service on string input (the string
branch of the worker version is character-identical).  The free-form
Date.parse fallback is host behaviour and is passed in as fallback:
it receives the trimmed, ordinal-stripped input and returns the
ISO day string or none (NaN). -/
def normalizeDateWith (fallback : String → Option String) (s : String) : Option String :=
  if s = "" then none
  else
    let dateStr := jsTrim s
    let viaFallback : Option String := fallback (stripOrdinal dateStr)
    match matchStrictDate dateStr with
    | none => viaFallback
    | some (d0, m0, y0) =>
      let year := promoteYear y0
      match swapDM d0 m0 with
      | (day, month) =>
        if strictBoundsOk day month year then some (isoOfYMD year month day)
        else viaFallback

/-- A possibly-absent cell fed to normalizeDate (null on undefined). -/
def normalizeDateOptWith (fallback : String → Option String) (o : Option String) :
    Option String :=
  match o with
  | none => none
  | some s => normalizeDateWith fallback s

/-- Fallback modelling a Date.parse call that fails (returns NaN) on
every input it is given; used to instantiate witnesses at inputs whose
fallback strings are not parseable dates. -/
def noFallback : String → Option String := fun _ => none

/-- A transaction as assembled by the parsers, before categorization
and identity assignment (date, description, debit, credit; absent
amounts are none). -/
structure Txn where
  date : String
  description : String
  debit : Option ℚ
  credit : Option ℚ
deriving DecidableEq, Repr

/-- A detected column of the free-text table: semantic key, start
offset, and end offset (the stop field models the end property). -/
structure ColDef where
  key : String
  start : Nat
  stop : Nat
deriving DecidableEq, Repr

/-- The HEADER_KEYWORDS table shared verbatim by the service and the
worker text parsers. -/
def HEADER_KEYWORDS : List (String × List String) :=
  [("date", ["date", "txn date", "value date"]),
   ("description", ["description", "narration", "particulars", "remarks"]),
   ("debit", ["debit", "withdrawal", "dr."]),
   ("credit", ["credit", "deposit", "cr."]),
   ("balance", ["balance"])]

/-- For each semantic key, the index of the first alias (in alias
order) found in the lowercased line; both parser sources record one
entry per key in HEADER_KEYWORDS order. -/
def findColsInLine (lineLower : String) : List (String × Nat) :=
  HEADER_KEYWORDS.filterMap
    (fun kv => (List.findSome? (fun a => jsIndexOf lineLower a) kv.2).map (fun i => (kv.1, i)))

/-- Does the found-columns list hold the given key? -/
def hasKey (cols : List (String × Nat)) (k : String) : Bool := cols.any (fun c => c.1 == k)

/-- Stable insertion into a list sorted by offset (models the stable JS
sort by index; no two found columns can share an offset, as no alias
of one key is a prefix of an alias of another). -/
def insertByIdx (x : String × Nat) : List (String × Nat) → List (String × Nat)
  | [] => [x]
  | y :: ys => if y.2 < x.2 then y :: insertByIdx x ys else x :: y :: ys

/-- Stable sort of found columns by offset. -/
def sortByIdx (l : List (String × Nat)) : List (String × Nat) := l.foldr insertByIdx []

/-- Column spans: each column runs from its marker offset to the next
marker's offset, the last one to the header line's length. -/
def spansOf : List (String × Nat) → Nat → List ColDef
  | [], _ => []
  | x :: rest, lineLen =>
    ⟨x.1, x.2, match rest with | y :: _ => y.2 | [] => lineLen⟩ :: spansOf rest lineLen

/-- Does a lowercased line qualify as a header (date, description and
at least one of debit/credit found)? -/
def qualifiesAsHeader (foundCols : List (String × Nat)) : Bool :=
  hasKey foundCols "date" && hasKey foundCols "description"
    && (hasKey foundCols "debit" || hasKey foundCols "credit")

/-- Header scan shared by both parsers: walk the lines with the current
index and remaining budget (at most the first 20 lines). -/
def findHeaderRowAux : List String → Nat → Nat → Option (Nat × List ColDef)
  | [], _, _ => none
  | _, _, 0 => none
  | l :: rest, i, fuel + 1 =>
    let foundCols := findColsInLine (jsToLower l)
    if qualifiesAsHeader foundCols then
      some (i, spansOf (sortByIdx foundCols) l.data.length)
    else findHeaderRowAux rest (i + 1) fuel

/-- Header detection of parseTextContent (identical in the service and
the worker sources): scan at most the first 20 lines. -/
def findHeaderRow (lines : List String) : Option (Nat × List ColDef) :=
  findHeaderRowAux lines 0 (min lines.length 20)

/-- The rowData object: the value of a semantic key is the trimmed
substring of the given line over that key's column span (last
assignment wins, as in the JS forEach). -/
def rowOf (cols : List ColDef) (line : String) (k : String) : Option String :=
  (cols.reverse.find? (fun c => c.key == k)).map
    (fun c => jsTrim (jsSubstring line c.start c.stop))

/-- processLineBuffer of the service parser: build rowData from the
first buffered line, fold continuation lines into the description
(the service trims the joined continuations before appending), and
keep the record only when date, description and one amount are
present. -/
def flushService (f : String → Option String) (cols : List ColDef) (buf : List String) :
    Option Txn :=
  match buf with
  | [] => none
  | firstLine :: otherLines =>
    let date := normalizeDateOptWith f (rowOf cols firstLine "date")
    let debit := normalizeAmountOpt (rowOf cols firstLine "debit")
    let credit := normalizeAmountOpt (rowOf cols firstLine "credit")
    let descr0 := jsTrim ((rowOf cols firstLine "description").getD "")
    let description := jsCollapseWs
      (if otherLines.isEmpty then descr0 else descr0 ++ " " ++ jsTrim (joinSpace otherLines))
    match date with
    | none => none
    | some d =>
      if description ≠ "" ∧ (debit.isSome ∨ credit.isSome) then
        some ⟨d, description, debit, credit⟩
      else none

/-- processLineBuffer of the worker parser: the description is the
space-join of the description cell and the continuation lines,
whitespace-collapsed and then trimmed. -/
def flushWorker (f : String → Option String) (cols : List ColDef) (buf : List String) :
    Option Txn :=
  match buf with
  | [] => none
  | firstLine :: otherLines =>
    let date := normalizeDateOptWith f (rowOf cols firstLine "date")
    let debit := workerNormalizeAmountOpt (rowOf cols firstLine "debit")
    let credit := workerNormalizeAmountOpt (rowOf cols firstLine "credit")
    let descr0 := (rowOf cols firstLine "description").getD ""
    let description := jsTrim (jsCollapseWs (joinSpace (descr0 :: otherLines)))
    match date with
    | none => none
    | some d =>
      if description ≠ "" ∧ (debit.isSome ∨ credit.isSome) then
        some ⟨d, description, debit, credit⟩
      else none

/-- The line-walking loop both text parsers run after the header row:
a line passing the starts-new-transaction gate flushes the buffer and
opens a new one; otherwise the line joins a non-empty buffer as a
continuation and is skipped when no transaction is pending.  The
service and the worker instantiate the gate and the flush
differently. -/
def bufAssemble (startsNew : String → Bool) (flush : List String → Option Txn) :
    List String → List String → List Txn → List Txn
  | [], buf, acc => acc ++ (flush buf).toList
  | line :: rest, buf, acc =>
    if startsNew line then
      bufAssemble startsNew flush rest [line] (acc ++ (flush buf).toList)
    else if !buf.isEmpty then bufAssemble startsNew flush rest (buf ++ [line]) acc
    else bufAssemble startsNew flush rest buf acc

/-- The service gate: the trimmed substring in the date column's span
normalizes to a valid date. -/
def gateService (f : String → Option String) (dateCol : ColDef) (line : String) : Bool :=
  (normalizeDateWith f (jsTrim (jsSubstring line dateCol.start dateCol.stop))).isSome

/-- The worker gate: as the service gate, plus the requirement that the
line extend strictly beyond the date column's end offset. -/
def gateWorker (f : String → Option String) (dateCol : ColDef) (line : String) : Bool :=
  (normalizeDateWith f (jsTrim (jsSubstring line dateCol.start dateCol.stop))).isSome
    && decide (line.data.length > dateCol.stop)

/-- JS String.prototype.split on a single separator character, on
character lists (splitting the empty string yields one empty field,
as in JS). -/
def splitChAux (sep : Char) : List Char → List (List Char)
  | [] => [[]]
  | c :: cs =>
    let r := splitChAux sep cs
    if c = sep then [] :: r
    else match r with
      | h :: t => (c :: h) :: t
      | [] => [[c]]

/-- JS split of a string on a separator character. -/
def jsSplitCh (sep : Char) (s : String) : List String := (splitChAux sep s.data).map String.mk

/-- JS text.split of a string on newlines. -/
def jsSplitNl (s : String) : List String := jsSplitCh '\n' s

/-- Split into trimmed non-empty lines, shared by both parsers. -/
def linesOf (text : String) : List String :=
  ((jsSplitNl text).map jsTrim).filter (fun l => l ≠ "")

/-- parseTextContent of the main-thread parser service. -/
def parseTextContent (f : String → Option String) (text : String) : List Txn :=
  let lines := linesOf text
  if lines.isEmpty then []
  else
    match findHeaderRow lines with
    | none => []
    | some (i, cols) =>
      match cols.find? (fun c => c.key == "date") with
      | none => []
      | some dateCol =>
        bufAssemble (gateService f dateCol) (flushService f cols) (lines.drop (i + 1)) [] []

/-- parseTextContent of the parsing worker: fewer than two lines yield
no transactions, the gate also requires the line to extend past the
date column, and the flush trims the assembled description. -/
def workerParseTextContent (f : String → Option String) (text : String) : List Txn :=
  let lines := linesOf text
  if lines.length < 2 then []
  else
    match findHeaderRow lines with
    | none => []
    | some (i, cols) =>
      match cols.find? (fun c => c.key == "date") with
      | none => []
      | some dateCol =>
        bufAssemble (gateWorker f dateCol) (flushWorker f cols) (lines.drop (i + 1)) [] []

/-- The pending transaction of the row-assembly state machine the
specification describes: the line that opened the record and the
description accumulated so far. -/
structure Pending where
  firstLine : String
  desc : String
deriving DecidableEq, Repr

/-- One step of the specification's row-assembly machine: a line
passing the starts-new gate finalizes the pending record and opens a
new one whose description starts as the line's description cell; any
other line is appended, space-joined, to a pending description, and
is dropped when nothing is pending. -/
def specStep (startsNew : String → Bool) (descSpan : String → String)
    (finalize : String → String → Option Txn) (st : List Txn × Option Pending)
    (line : String) : List Txn × Option Pending :=
  if startsNew line then
    (st.1 ++ (match st.2 with | some p => (finalize p.firstLine p.desc).toList | none => []),
     some ⟨line, descSpan line⟩)
  else
    match st.2 with
    | some p => (st.1, some ⟨p.firstLine, p.desc ++ " " ++ line⟩)
    | none => st

/-- Run the row-assembly machine over the lines and finalize the last
pending record. -/
def specRun (startsNew : String → Bool) (descSpan : String → String)
    (finalize : String → String → Option Txn) (st : List Txn × Option Pending)
    (lines : List String) : List Txn :=
  match lines.foldl (specStep startsNew descSpan finalize) st with
  | (out, pending) =>
    out ++ (match pending with | some p => (finalize p.firstLine p.desc).toList | none => [])

/-- The description cell of a line as the service flush reads it (the
rowData value, trimmed once more; empty when the column is absent). -/
def descSpanService (cols : List ColDef) (line : String) : String :=
  jsTrim ((rowOf cols line "description").getD "")

/-- The description cell of a line as the worker flush reads it (the
rowData value as stored, already trimmed by rowOf). -/
def descSpanWorker (cols : List ColDef) (line : String) : String :=
  (rowOf cols line "description").getD ""

/-- Finalization of the specification machine with the service's
validation and description collapse. -/
def finalizeService (f : String → Option String) (cols : List ColDef)
    (firstLine desc : String) : Option Txn :=
  let date := normalizeDateOptWith f (rowOf cols firstLine "date")
  let debit := normalizeAmountOpt (rowOf cols firstLine "debit")
  let credit := normalizeAmountOpt (rowOf cols firstLine "credit")
  let description := jsCollapseWs desc
  match date with
  | none => none
  | some d =>
    if description ≠ "" ∧ (debit.isSome ∨ credit.isSome) then
      some ⟨d, description, debit, credit⟩
    else none

/-- Finalization of the specification machine with the worker's
validation (collapse then trim). -/
def finalizeWorker (f : String → Option String) (cols : List ColDef)
    (firstLine desc : String) : Option Txn :=
  let date := normalizeDateOptWith f (rowOf cols firstLine "date")
  let debit := workerNormalizeAmountOpt (rowOf cols firstLine "debit")
  let credit := workerNormalizeAmountOpt (rowOf cols firstLine "credit")
  let description := jsTrim (jsCollapseWs desc)
  match date with
  | none => none
  | some d =>
    if description ≠ "" ∧ (debit.isSome ∨ credit.isSome) then
      some ⟨d, description, debit, credit⟩
    else none

/-- The specification's description of the service text parser: same
header detection, then the row-assembly machine gated solely on the
date cell normalizing. -/
def specParseService (f : String → Option String) (text : String) : List Txn :=
  let lines := linesOf text
  if lines.isEmpty then []
  else
    match findHeaderRow lines with
    | none => []
    | some (i, cols) =>
      match cols.find? (fun c => c.key == "date") with
      | none => []
      | some dateCol =>
        specRun (gateService f dateCol) (descSpanService cols) (finalizeService f cols)
          ([], none) (lines.drop (i + 1))

/-- The worker text parser as a row-assembly machine: the gate also
checks that the line extends past the date column. -/
def specParseWorker (f : String → Option String) (text : String) : List Txn :=
  let lines := linesOf text
  if lines.length < 2 then []
  else
    match findHeaderRow lines with
    | none => []
    | some (i, cols) =>
      match cols.find? (fun c => c.key == "date") with
      | none => []
      | some dateCol =>
        specRun (gateWorker f dateCol) (descSpanWorker cols) (finalizeWorker f cols)
          ([], none) (lines.drop (i + 1))

/-- The row-assembly machine gated solely on the date cell, with the
worker finalization: what the specification asserts of the worker
parser. -/
def specParseWorkerDateGateOnly (f : String → Option String) (text : String) : List Txn :=
  let lines := linesOf text
  if lines.length < 2 then []
  else
    match findHeaderRow lines with
    | none => []
    | some (i, cols) =>
      match cols.find? (fun c => c.key == "date") with
      | none => []
      | some dateCol =>
        specRun (gateService f dateCol) (descSpanWorker cols) (finalizeWorker f cols)
          ([], none) (lines.drop (i + 1))

/-- The three-line end-to-end scenario of the specification: a header
containing Date, Description, Debit and Credit laid out over the data
columns, one transaction line, one continuation line. -/
def scenarioText : String :=
  "Date      Description    Debit     Credit\n01/02/2024   ZOMATO ORDER   450.00\n  ref:12345"

/-- The single transaction the scenario is specified to produce. -/
def scenarioTxn : Txn :=
  ⟨"2024-02-01", "ZOMATO ORDER ref:12345", some (mkRat 45000 100), none⟩

/-- Text on which the service and the worker text parsers disagree:
the second data line is a bare date not extending past the date
column, so the service starts (and then drops) a new record while the
worker folds the line into the previous description. -/
def divergingText : String :=
  "date   description debit\n1/2/34 LUNCH       450.0\n1/2/35"

/-- A tokenized CSV/XLSX row: field-keyed record modelled as an
association list from header label to cell text (the tokenizers are
external capabilities; numeric XLSX cells are outside this model). -/
def Row : Type := List (String × String)

/-- JS property read on a row record (undefined when the key is
absent; object keys are unique, so the first binding wins). -/
def lookupRow (row : Row) (k : String) : Option String :=
  (List.find? (fun kv => kv.1 == k) row).map (fun kv => kv.2)

/-- The MAPPINGS alias table of findHeaders, identical in the worker
and in the service parseCsv. -/
def MAPPINGS : List (String × List String) :=
  [("date", ["date", "transaction date", "txn date", "value date"]),
   ("description", ["description", "narration", "particulars", "remarks"]),
   ("debit", ["debit", "withdrawal amt.", "withdrawal", "dr"]),
   ("credit", ["credit", "deposit amt.", "deposit", "cr"]),
   ("amount", ["amount", "transaction amount"])]

/-- The header map: for each canonical field, the raw header chosen as
its source column, when any. -/
structure HeaderMap where
  date : Option String
  description : Option String
  debit : Option String
  credit : Option String
  amount : Option String
deriving DecidableEq, Repr

/-- For one canonical field, the first alias (in alias order) for which
some raw header's lowercased trimmed text holds the alias as a
substring selects that raw header. -/
def findAliasHeader (rawHeaders : List String) (aliases : List String) : Option String :=
  List.findSome?
    (fun al => List.find? (fun h => jsIncludes (jsTrim (jsToLower h)) al) rawHeaders)
    aliases

/-- Build the header map from the raw header labels. -/
def headerMapOf (rawHeaders : List String) : HeaderMap :=
  ⟨findAliasHeader rawHeaders ["date", "transaction date", "txn date", "value date"],
   findAliasHeader rawHeaders ["description", "narration", "particulars", "remarks"],
   findAliasHeader rawHeaders ["debit", "withdrawal amt.", "withdrawal", "dr"],
   findAliasHeader rawHeaders ["credit", "deposit amt.", "deposit", "cr"],
   findAliasHeader rawHeaders ["amount", "transaction amount"]⟩

/-- findHeaders of the worker: inspect the keys of the first row
record, map them to canonical fields, and fail when no date or
description column, or no amount-bearing column, is found. -/
def findHeaders (data : List Row) : Except String HeaderMap :=
  let rawHeaders : List String := match data with
    | [] => []
    | r :: _ => r.map (fun kv => kv.1)
  if rawHeaders.isEmpty then .error "Could not detect any headers."
  else
    let headerMap := headerMapOf rawHeaders
    if headerMap.date.isNone || headerMap.description.isNone then
      .error "Could not find required columns (Date, Description)."
    else if headerMap.debit.isNone && headerMap.credit.isNone && headerMap.amount.isNone then
      .error "Could not find amount columns (Debit/Credit or Amount)."
    else .ok headerMap

/-- The debit/credit cells of a row under a header map, worker version
(the worker normalizeAmount): separate debit/credit columns when
either exists, otherwise a single amount column whose sign is decided
by a minus sign or a dr substring in the raw text. -/
def workerRowAmounts (row : Row) (headerMap : HeaderMap) : Option ℚ × Option ℚ :=
  if headerMap.debit.isSome || headerMap.credit.isSome then
    (workerNormalizeAmountOpt (headerMap.debit.bind (lookupRow row)),
     workerNormalizeAmountOpt (headerMap.credit.bind (lookupRow row)))
  else
    match headerMap.amount with
    | some ak =>
      let amountStr := (lookupRow row ak).getD "undefined"
      match workerNormalizeAmount amountStr with
      | some amount =>
        if jsIncludes amountStr "-" || jsIncludes (jsToLower amountStr) "dr" then
          (some amount, none)
        else (none, some amount)
      | none => (none, none)
    | none => (none, none)

/-- mapRowToTransaction of the worker: normalize the date and amounts,
trim the description, and drop the row when the date fails, the
description is empty, or both amounts are absent. -/
def mapRowToTransaction (f : String → Option String) (row : Row) (headerMap : HeaderMap) :
    Option Txn :=
  let description := jsTrim ((headerMap.description.bind (lookupRow row)).getD "")
  match workerRowAmounts row headerMap with
  | (debit, credit) =>
    match normalizeDateOptWith f (headerMap.date.bind (lookupRow row)) with
    | none => none
    | some normalizedDate =>
      if description ≠ "" ∧ (debit.isSome ∨ credit.isSome) then
        some ⟨normalizedDate, description, debit, credit⟩
      else none

/-- parseCsvOrXlsx of the worker: map every row and silently drop the
null ones. -/
def parseCsvOrXlsx (f : String → Option String) (data : List Row) :
    Except String (List Txn) :=
  match findHeaders data with
  | .error e => .error e
  | .ok headerMap => .ok ((data.map (fun row => mapRowToTransaction f row headerMap)).reduceOption)

/-- The debit/credit cells of a row, service version (the service
normalizeAmount, which strips a real rupee sign). -/
def serviceRowAmounts (row : Row) (headerMap : HeaderMap) : Option ℚ × Option ℚ :=
  if headerMap.debit.isSome || headerMap.credit.isSome then
    (normalizeAmountOpt (headerMap.debit.bind (lookupRow row)),
     normalizeAmountOpt (headerMap.credit.bind (lookupRow row)))
  else
    match headerMap.amount with
    | some ak =>
      let amountStr := (lookupRow row ak).getD "undefined"
      match normalizeAmount amountStr with
      | some amount =>
        if jsIncludes amountStr "-" || jsIncludes (jsToLower amountStr) "dr" then
          (some amount, none)
        else (none, some amount)
      | none => (none, none)
    | none => (none, none)

/-- The row mapping inside the service parseCsv: as the worker's, but
the description cell is tested for truthiness before trimming. -/
def csvMapRow (f : String → Option String) (row : Row) (headerMap : HeaderMap) : Option Txn :=
  match serviceRowAmounts row headerMap with
  | (debit, credit) =>
    match normalizeDateOptWith f (headerMap.date.bind (lookupRow row)) with
    | none => none
    | some normalizedDate =>
      match headerMap.description.bind (lookupRow row) with
      | none => none
      | some ds =>
        if ds = "" then none
        else if debit.isNone ∧ credit.isNone then none
        else some ⟨normalizedDate, jsTrim ds, debit, credit⟩

/-- parseCsv of the service on already-tokenized input: the Papa
tokenizer is an external capability, so the model receives the parsed
header labels and row records. -/
def parseCsv (f : String → Option String) (rawHeaders : List String) (rows : List Row) :
    Except String (List Txn) :=
  let headerMap := headerMapOf rawHeaders
  if headerMap.date.isNone || headerMap.description.isNone then
    .error "Could not find required columns (Date, Description) in CSV."
  else if headerMap.debit.isNone && headerMap.credit.isNone && headerMap.amount.isNone then
    .error "Could not find amount columns (Debit/Credit or Amount) in CSV."
  else .ok ((rows.map (fun row => csvMapRow f row headerMap)).reduceOption)

/-- The type constraint of a built-in category rule. -/
inductive RuleType where
  | debit
  | credit
  | any
deriving DecidableEq, Repr

/-- A built-in category rule. -/
structure CategoryRule where
  category : String
  keywords : List String
  type : RuleType
deriving DecidableEq, Repr

/-- A custom rule (description is the unique key). -/
structure CustomRule where
  description : String
  category : String
  source : String
deriving DecidableEq, Repr

/-- CATEGORY_RULES, identical in constants.ts and in the worker. -/
def CATEGORY_RULES : List CategoryRule :=
  [⟨"Salary", ["salary", "sal deposit"], .credit⟩,
   ⟨"Credit Card Bill", ["credit card", "cc bill", "cc payment"], .debit⟩,
   ⟨"Loan/EMI", ["emi", "loan", "equated monthly"], .debit⟩,
   ⟨"Petrol", ["petrol", "fuel", "indian oil", "hpcl", "bharat petroleum"], .debit⟩,
   ⟨"Food", ["zomato", "swiggy", "restaurant", "cafe", "food", "dominos", "pizza hut"], .debit⟩,
   ⟨"UPI", ["upi"], .any⟩,
   ⟨"Transfer", ["tfr", "transfer", "neft", "rtgs", "imps"], .any⟩]

/-- The inner keyword loop of categorizeTransaction: does any keyword
occur, lowercased, inside the lowercased description? -/
def keywordLoop (description : String) : List String → Bool
  | [] => false
  | k :: rest =>
    if jsIncludes description (jsToLower k) then true else keywordLoop description rest

/-- The outer rule loop of categorizeTransaction: skip rules whose
type constraint fails, return the first rule with a keyword hit. -/
def builtinLoop (t : Txn) (description : String) : List CategoryRule → Option String
  | [] => none
  | r :: rest =>
    if r.type == RuleType.debit && t.debit.isNone then builtinLoop t description rest
    else if r.type == RuleType.credit && t.credit.isNone then builtinLoop t description rest
    else if keywordLoop description r.keywords then some r.category
    else builtinLoop t description rest

/-- categorizeTransaction of the categorization service (the worker
copy is character-identical): custom rules first (case-insensitive
exact description match), then built-in rules in declaration order,
then the default bucket by transaction type. -/
def categorizeTransaction (t : Txn) (customRules : List CustomRule) : String :=
  let description := jsToLower t.description
  match List.find? (fun rule => jsToLower rule.description == description) customRules with
  | some customRule => customRule.category
  | none =>
    match builtinLoop t description CATEGORY_RULES with
    | some c => c
    | none => if t.credit.isSome then "Other Income" else "Other Expense"

/-- Type-constraint compatibility as the specification words it. -/
def ruleTypeCompatible (r : CategoryRule) (t : Txn) : Bool :=
  match r.type with
  | .debit => t.debit.isSome
  | .credit => t.credit.isSome
  | .any => true

/-- Keyword hit as the specification words it. -/
def ruleKeywordHits (r : CategoryRule) (t : Txn) : Bool :=
  r.keywords.any (fun k => jsIncludes (jsToLower t.description) (jsToLower k))

/-- The categorization function as the specification describes it:
first matching custom rule, else first compatible built-in rule with
a keyword occurrence, else the default bucket. -/
def categorizeSpec (t : Txn) (customRules : List CustomRule) : String :=
  match List.find?
      (fun rule => jsToLower rule.description == jsToLower t.description) customRules with
  | some rule => rule.category
  | none =>
    match List.find? (fun r => ruleTypeCompatible r t && ruleKeywordHits r t) CATEGORY_RULES with
    | some r => r.category
    | none => if t.credit.isSome then "Other Income" else "Other Expense"

/-- A finished transaction before identity assignment (the Omit of id
from the Transaction type). -/
structure FullTxn where
  date : String
  description : String
  debit : Option ℚ
  credit : Option ℚ
  category : String
  sourceFile : String
deriving DecidableEq, Repr

/-- A stored Transaction record. -/
structure Transaction where
  id : String
  date : String
  description : String
  debit : Option ℚ
  credit : Option ℚ
  category : String
  sourceFile : String
deriving DecidableEq, Repr

/-- The digest input of createTransactionId in the service: the
template string interpolating date, description, debit, credit and
sourceFile, joined by hyphens.  The rendering of a JS number (and of
null) inside the template is the host's and is a parameter. -/
def encodeTxnId (render : Option ℚ → String) (t : FullTxn) : String :=
  t.date ++ "-" ++ t.description ++ "-" ++ render t.debit ++ "-" ++ render t.credit
    ++ "-" ++ t.sourceFile

/-- createTransactionId of the service: SHA-1 (a host capability,
passed as sha1) over the digest input, hex-encoded by the host. -/
def createTransactionId (sha1 : String → String) (render : Option ℚ → String)
    (t : FullTxn) : String :=
  sha1 (encodeTxnId render t)

/-- The digest input of the worker createTransactionId (the template
string in the worker source is character-identical). -/
def workerEncodeTxnId (render : Option ℚ → String) (t : FullTxn) : String :=
  t.date ++ "-" ++ t.description ++ "-" ++ render t.debit ++ "-" ++ render t.credit
    ++ "-" ++ t.sourceFile

/-- createTransactionId of the worker. -/
def workerCreateTransactionId (sha1 : String → String) (render : Option ℚ → String)
    (t : FullTxn) : String :=
  sha1 (workerEncodeTxnId render t)

/-- The per-user database state the dbService keeps: the transactions
store (keyed by id), the custom-rules store (keyed by description)
and the categories store (keyed by name). -/
structure DB where
  transactions : List Transaction
  customRules : List CustomRule
  categories : List String
deriving DecidableEq, Repr

/-- IndexedDB put on the transactions store: replace the record with
the same id, or append. -/
def putTransaction (l : List Transaction) (t : Transaction) : List Transaction :=
  if l.any (fun u => u.id == t.id) then l.map (fun u => if u.id == t.id then t else u)
  else l ++ [t]

/-- IndexedDB delete on the custom-rules store by description key. -/
def deleteRuleByDescription (l : List CustomRule) (d : String) : List CustomRule :=
  l.filter (fun r => r.description ≠ d)

/-- deleteCategory of the dbService: reassign the category's
transactions to Other Expense (put by id), delete the custom rules
pointing at the category (delete by description), then delete the
category name from the categories store. -/
def deleteCategory (db : DB) (categoryName : String) : DB :=
  let transactionsToUpdate := db.transactions.filter (fun t => t.category == categoryName)
  let txns := transactionsToUpdate.foldl
    (fun l t => putTransaction l { t with category := "Other Expense" }) db.transactions
  let rulesToDelete := db.customRules.filter (fun r => r.category == categoryName)
  let rules := rulesToDelete.foldl
    (fun l r => deleteRuleByDescription l r.description) db.customRules
  ⟨txns, rules, db.categories.filter (fun n => n ≠ categoryName)⟩

/-- A file handed to the orchestrator; its bytes are consumed only by
the format adapters, which this model takes as parameters, so only
the name is carried. -/
structure IngestFile where
  name : String
deriving DecidableEq, Repr

/-- The extension the worker dispatches on:
file.name.split of the dot, pop, toLowerCase. -/
def extOf (name : String) : String :=
  jsToLower ((jsSplitCh '.' name).getLastD "")

/-- A per-file parsing error of the batch result. -/
structure ParsingError where
  fileName : String
  error : String
deriving DecidableEq, Repr

/-- The batch result of parseFiles. -/
structure ParsingResult where
  transactions : List Transaction
  errors : List ParsingError
deriving DecidableEq, Repr

/-- The format adapters of one worker, abstracted: each maps a file to
raw transactions or a thrown error message. -/
structure Adapters where
  pdf : IngestFile → Except String (List Txn)
  csv : IngestFile → Except String (List Txn)
  txt : IngestFile → Except String (List Txn)
  xlsx : IngestFile → Except String (List Txn)

/-- The extension dispatch of the worker onmessage handler: unsupported
extensions throw the not-supported error. -/
def workerDispatch (a : Adapters) (file : IngestFile) : Except String (List Txn) :=
  match extOf file.name with
  | "pdf" => a.pdf file
  | "csv" => a.csv file
  | "txt" => a.txt file
  | "xlsx" => a.xlsx file
  | "xls" => a.xlsx file
  | e => .error ("File type \"." ++ e ++ "\" is not supported.")

/-- The success path of the worker onmessage handler: categorize each
raw transaction under the batch's custom-rule snapshot, stamp the
source file, and assign the content id. -/
def workerProcessFile (a : Adapters) (customRules : List CustomRule)
    (sha1 : String → String) (render : Option ℚ → String) (file : IngestFile) :
    Except String (List Transaction) :=
  match workerDispatch a file with
  | .error e => .error e
  | .ok rawTransactions =>
    if rawTransactions.isEmpty then .ok []
    else .ok (rawTransactions.map (fun t =>
      let category := categorizeTransaction t customRules
      ⟨workerCreateTransactionId sha1 render
          ⟨t.date, t.description, t.debit, t.credit, category, file.name⟩,
        t.date, t.description, t.debit, t.credit, category, file.name⟩))

/-- One step of the aggregation loop of the worker-based parseFiles: a
fulfilled file appends its transactions, a rejected file appends an
error entry with the file name. -/
def batchStep (a : Adapters) (customRules : List CustomRule) (sha1 : String → String)
    (render : Option ℚ → String) (res : ParsingResult) (file : IngestFile) : ParsingResult :=
  match workerProcessFile a customRules sha1 render file with
  | .ok ts => ⟨res.transactions ++ ts, res.errors⟩
  | .error e => ⟨res.transactions, res.errors ++ [⟨file.name, e⟩]⟩

/-- The aggregation loop of the worker-based parseFiles: files are
processed independently and their outcomes folded in order. -/
def processBatch (a : Adapters) (customRules : List CustomRule) (sha1 : String → String)
    (render : Option ℚ → String) (files : List IngestFile) : ParsingResult :=
  files.foldl (batchStep a customRules sha1 render) ⟨[], []⟩

/-- parseFiles of the worker-based parser service: reject batches of
more than five files, otherwise aggregate per-file results. -/
def parseFiles (a : Adapters) (customRules : List CustomRule) (sha1 : String → String)
    (render : Option ℚ → String) (files : List IngestFile) : Except String ParsingResult :=
  if files.length > 5 then .error "Please upload a maximum of 5 files at a time."
  else .ok (processBatch a customRules sha1 render files)

/-- The zero-debit pipeline row and its finished transaction. -/
def zeroRowData : List Row :=
  [[("Date", "01/02/2024"), ("Description", "X"), ("Debit", "0"), ("Credit", "")]]

/-- The transaction the zero-debit row becomes. -/
def zeroTxn : Txn := ⟨"2024-02-01", "X", some 0, none⟩

/-- What the code in fact guarantees about the amounts of a finished
transaction: at least one of debit/credit is present, and any present
value is non-negative. -/
def amountsOk (t : Txn) : Prop :=
  (t.debit.isSome ∨ t.credit.isSome)
    ∧ (∀ q, t.debit = some q → 0 ≤ q) ∧ (∀ q, t.credit = some q → 0 ≤ q)

/-- The row populating both amount columns, and its finished
transaction. -/
def bothRowData : List Row :=
  [[("Date", "01/02/2024"), ("Description", "X"), ("Debit", "100"), ("Credit", "200")]]

/-- The transaction the double-amount row becomes: both debit and
credit non-null. -/
def bothTxn : Txn := ⟨"2024-02-01", "X", some 100, some 200⟩

/-- Exactly-one-and-positive, the property C1 asserts of every
finished transaction. -/
def exactlyOnePositive (t : Txn) : Prop :=
  (∃ q, t.debit = some q ∧ 0 < q ∧ t.credit = none)
    ∨ (∃ q, t.credit = some q ∧ 0 < q ∧ t.debit = none)

/-- Concrete adapters for the batch counterexample: the csv adapter
finds one transaction, the others none. -/
def exAdapters : Adapters :=
  ⟨fun _ => .ok [], fun _ => .ok [⟨"2024-02-01", "X", some 1, none⟩],
   fun _ => .ok [], fun _ => .ok []⟩

/-- A concrete database for the C9 witness. -/
def exDb : DB :=
  ⟨[⟨"i1", "2024-02-01", "ZOMATO", some 450, none, "Food", "a.csv"⟩,
    ⟨"i2", "2024-02-02", "UPI PAY", some 20, none, "UPI", "a.csv"⟩],
   [⟨"ZOMATO", "Food", "manual"⟩, ⟨"UPI PAY", "UPI", "manual"⟩],
   ["Food", "UPI"]⟩

/-- A line kept by the parsers: trimmed and non-empty. -/
def goodLine (x : String) : Prop := jsTrim x = x ∧ x ≠ ""

/-- Neither edge character of the list is whitespace. -/
def noEdgeWs (l : List Char) : Prop :=
  (∀ c, l.head? = some c → isWs c = false) ∧ (∀ c, l.getLast? = some c → isWs c = false)

/-- The description a pending record has accumulated after starting
from a line and absorbing the given continuations. -/
def accumDesc (descSpan : String → String) (l : String) (ls : List String) : String :=
  ls.foldl (fun d x => d ++ " " ++ x) (descSpan l)

/-- The machine state corresponding to a line buffer. -/
def bufToPending (descSpan : String → String) : List String → Option Pending
  | [] => none
  | l :: ls => some ⟨l, accumDesc descSpan l ls⟩

/-- The side conditions under which the two text parsers coincide on a
text: every data line that passes the service's starts-new gate also
extends past the date column, has a non-empty description cell, and
has amount cells on which the two normalizeAmount variants agree. -/
def c6Conditions (f : String → Option String) (text : String) : Prop :=
  match findHeaderRow (linesOf text) with
  | none => True
  | some (i, cols) =>
    match List.find? (fun c => c.key == "date") cols with
    | none => True
    | some dateCol =>
      ∀ l ∈ List.drop (i + 1) (linesOf text),
        gateService f dateCol l = true →
          l.data.length > dateCol.stop ∧
          descSpanWorker cols l ≠ "" ∧
          workerNormalizeAmountOpt (rowOf cols l "debit")
            = normalizeAmountOpt (rowOf cols l "debit") ∧
          workerNormalizeAmountOpt (rowOf cols l "credit")
            = normalizeAmountOpt (rowOf cols l "credit")

instance c6ConditionsDecidable (f : String → Option String) (text : String) :
    Decidable (c6Conditions f text) := by
  unfold c6Conditions
  cases findHeaderRow (linesOf text) with
  | none => exact isTrue trivial
  | some ic =>
    cases ic with
    | mk i cols =>
      dsimp only
      cases List.find? (fun c => c.key == "date") cols with
      | none => exact isTrue trivial
      | some dateCol => exact inferInstance

/-- Length bound for dropWhile, used for termination of the ordinal
stripper. -/
theorem lengthDropWhileLe (p : Char → Bool) (l : List Char) :
    (l.dropWhile p).length ≤ l.length := by
  induction l with
  | nil => simp [List.dropWhile]
  | cons a as ih =>
    simp only [List.dropWhile]
    by_cases h : p a
    · simp [h]; omega
    · simp [h]

/-- The inner keyword loop is the any-combinator over the keywords. -/
theorem keywordLoop_eq_any (d : String) (ks : List String) :
    keywordLoop d ks = ks.any (fun k => jsIncludes d (jsToLower k)) := by
  induction ks with
  | nil => rfl
  | cons k rest ih =>
    simp only [keywordLoop, List.any_cons, ih]
    by_cases h : jsIncludes d (jsToLower k) = true <;> simp [h]

/-- The outer rule loop returns the category of the first rule whose
type constraint is compatible and one of whose keywords occurs in the
description. -/
theorem builtinLoop_eq_find (t : Txn) (rules : List CategoryRule) :
    builtinLoop t (jsToLower t.description) rules
      = (List.find? (fun r => ruleTypeCompatible r t && ruleKeywordHits r t) rules).map
          (fun r => r.category) := by
  induction rules with
  | nil => rfl
  | cons r rest ih =>
    have hkw : keywordLoop (jsToLower t.description) r.keywords = ruleKeywordHits r t := by
      rw [keywordLoop_eq_any]; rfl
    rcases hr : r.type <;>
      rcases hd : t.debit with _ | qd <;>
        rcases hc : t.credit with _ | qc <;>
          simp_all [builtinLoop, ruleTypeCompatible, List.find?, hkw] <;>
            rcases hh : ruleKeywordHits r t <;> simp_all

/-- C2.  categorizeTransaction returns the category of the first
custom rule matching the description case-insensitively; otherwise
the category of the first built-in rule in declaration order whose
type constraint is compatible and one of whose keywords occurs
case-insensitively in the description; otherwise Other Income when
credit is present, else Other Expense.  A custom rule for the
description ZOMATO overrides the built-in Food keyword rule. -/
theorem c2_categorize_spec :
    (∀ (t : Txn) (rs : List CustomRule), categorizeTransaction t rs = categorizeSpec t rs)
    ∧ categorizeTransaction ⟨"2024-02-01", "ZOMATO", some 450, none⟩
        [⟨"ZOMATO", "Dining Out", "manual"⟩] = "Dining Out"
    ∧ categorizeTransaction ⟨"2024-02-01", "ZOMATO", some 450, none⟩ [] = "Food" := by
  refine ⟨?_, by decide, by decide⟩
  intro t rs
  simp only [categorizeTransaction, categorizeSpec]
  cases h : List.find? (fun rule => jsToLower rule.description == jsToLower t.description) rs
    <;> simp only [h]
  rw [builtinLoop_eq_find]
  cases h2 : List.find? (fun r => ruleTypeCompatible r t && ruleKeywordHits r t) CATEGORY_RULES
    <;> simp [h2]

/-- C3.  On a string whose trimmed text matches the strict
D-sep-M-sep-Y pattern, normalizeDate promotes a sub-100 year by 2000,
swaps day and month exactly when the parsed month exceeds 12 and the
parsed day is at most 12, and produces the canonical ISO day exactly
when the calendar bounds hold, otherwise rejecting the strict branch
in favour of the fallback; and the canonical string for in-month days
is the zero-padded year-month-day; with the three examples of the
specification. -/
theorem c3_normalizeDate_strict :
    (∀ (f : String → Option String) (s : String) (d0 m0 y0 : Nat),
      matchStrictDate (jsTrim s) = some (d0, m0, y0) →
      (strictBoundsOk (swapDM d0 m0).1 (swapDM d0 m0).2 (promoteYear y0) →
        normalizeDateWith f s
          = some (isoOfYMD (promoteYear y0) (swapDM d0 m0).2 (swapDM d0 m0).1))
      ∧ (¬ strictBoundsOk (swapDM d0 m0).1 (swapDM d0 m0).2 (promoteYear y0) →
        normalizeDateWith f s = f (stripOrdinal (jsTrim s))))
    ∧ (∀ y m d, d ≤ daysInMonth y m →
        isoOfYMD y m d = toString y ++ "-" ++ pad2 m ++ "-" ++ pad2 d)
    ∧ (∀ f, normalizeDateWith f "31/01/2024" = some "2024-01-31")
    ∧ (∀ f, normalizeDateWith f "13/01/24" = some "2024-01-13")
    ∧ (∀ f, normalizeDateWith f "01/13/24" = some "2024-01-13") := by
  refine ⟨?_, ?_, fun f => rfl, fun f => rfl, fun f => rfl⟩
  · intro f s d0 m0 y0 h
    have hs : s ≠ "" := by
      intro he
      rw [he] at h
      rw [show matchStrictDate (jsTrim "") = none from rfl] at h
      cases h
    have key : normalizeDateWith f s
        = (if strictBoundsOk (swapDM d0 m0).1 (swapDM d0 m0).2 (promoteYear y0) then
            some (isoOfYMD (promoteYear y0) (swapDM d0 m0).2 (swapDM d0 m0).1)
          else f (stripOrdinal (jsTrim s))) := by
      unfold normalizeDateWith
      rw [if_neg hs]
      simp only [h]
    constructor
    · intro hb
      rw [key, if_pos hb]
    · intro hb
      rw [key, if_neg hb]
  · intro y m d hd
    simp [isoOfYMD, normYMD, hd]

/-- Witness for C3: the swapped example 01/13/24 matches the strict
pattern, passes the bounds after the swap, normalizes to 2024-01-13,
and the canonical-form conjunct applies to its components. -/
theorem c3_witness :
    matchStrictDate (jsTrim "01/13/24") = some (1, 13, 24)
    ∧ strictBoundsOk (swapDM 1 13).1 (swapDM 1 13).2 (promoteYear 24)
    ∧ normalizeDateWith noFallback "01/13/24"
        = some (isoOfYMD (promoteYear 24) (swapDM 1 13).2 (swapDM 1 13).1)
    ∧ 13 ≤ daysInMonth 2024 1
    ∧ isoOfYMD 2024 1 13 = toString 2024 ++ "-" ++ pad2 1 ++ "-" ++ pad2 13 :=
  ⟨by decide, by decide,
   (c3_normalizeDate_strict.1 noFallback "01/13/24" 1 13 24 (by decide)).1 (by decide),
   by decide, c3_normalizeDate_strict.2.1 2024 1 13 (by decide)⟩

/-- C4.  The service normalizeAmount strips the rupee sign so that
the rupee example yields 1234.50 and a leading minus is dropped by
the absolute value; the worker copy fails to strip an actual rupee
sign (its regex character class is a mojibake of the rupee sign) and
returns null on the same rupee example, while otherwise agreeing. -/
theorem c4_rupee_amounts :
    normalizeAmount "₹1,234.50 DR" = some (mkRat 123450 100)
    ∧ workerNormalizeAmount "₹1,234.50 DR" = none
    ∧ normalizeAmount "-500" = some 500
    ∧ workerNormalizeAmount "-500" = some 500
    ∧ workerNormalizeAmount "1,234.50 DR" = some (mkRat 123450 100) :=
  ⟨by decide, by decide, by decide, by decide, by decide⟩

/-- Injectivity on members of a list with nodup images. -/
theorem memInjOfNodupMap {α β : Type} {f : α → β} {l : List α}
    (h : (l.map f).Nodup) : ∀ x ∈ l, ∀ y ∈ l, f x = f y → x = y := by
  induction l with
  | nil => intro x hx; exact absurd hx (by simp)
  | cons a as ih =>
    simp only [List.map_cons, List.nodup_cons] at h
    intro x hx y hy hxy
    rcases List.mem_cons.mp hx with rfl | hx2
    · rcases List.mem_cons.mp hy with rfl | hy2
      · rfl
      · exact absurd (hxy ▸ List.mem_map_of_mem f hy2) h.1
    · rcases List.mem_cons.mp hy with rfl | hy2
      · exact absurd (hxy ▸ List.mem_map_of_mem f hx2) h.1
      · exact ih h.2 x hx2 y hy2 hxy

/-- C7.  createTransactionId is a deterministic function of exactly
date, description, debit, credit and sourceFile: for any digest and
number rendering, the service and worker implementations produce the
same id for transactions agreeing on those five fields, and storing a
transaction already present (same id, same record) by put leaves the
store unchanged (upsert, not duplicate). -/
theorem c7_id_determinism :
    (∀ (sha1 : String → String) (render : Option ℚ → String) (t1 t2 : FullTxn),
      t1.date = t2.date → t1.description = t2.description → t1.debit = t2.debit →
      t1.credit = t2.credit → t1.sourceFile = t2.sourceFile →
      createTransactionId sha1 render t1 = workerCreateTransactionId sha1 render t2)
    ∧ (∀ (l : List Transaction) (t : Transaction),
        (l.map (fun u => u.id)).Nodup → t ∈ l → putTransaction l t = l) := by
  constructor
  · intro sha1 render t1 t2 h1 h2 h3 h4 h5
    unfold createTransactionId workerCreateTransactionId encodeTxnId workerEncodeTxnId
    rw [h1, h2, h3, h4, h5]
  · intro l t hnd hmem
    unfold putTransaction
    rw [if_pos]
    · have : ∀ u ∈ l, (if u.id == t.id then t else u) = u := by
        intro u hu
        by_cases hid : u.id = t.id
        · have : u = t := memInjOfNodupMap hnd u hu t hmem hid
          simp [this]
        · simp [hid]
      calc l.map (fun u => if u.id == t.id then t else u)
          = l.map (fun u => u) := List.map_congr_left this
        _ = l := List.map_id' l
    · simp only [List.any_eq_true]
      exact ⟨t, hmem, by simp⟩

/-- Witness for C7 at two concrete transactions agreeing on the five
hashed fields but differing in category. -/
theorem c7_witness :
    createTransactionId (fun s => s) (fun _ => "n")
        ⟨"2024-02-01", "A", some 1, none, "Food", "f.csv"⟩
      = workerCreateTransactionId (fun s => s) (fun _ => "n")
        ⟨"2024-02-01", "A", some 1, none, "Other Expense", "f.csv"⟩ :=
  c7_id_determinism.1 (fun s => s) (fun _ => "n") _ _ rfl rfl rfl rfl rfl

/-- JS Math.abs is non-negative. -/
theorem jsAbs_nonneg (q : ℚ) : 0 ≤ jsAbs q := by
  unfold jsAbs
  split <;> linarith

/-- Every non-null service amount is non-negative. -/
theorem normalizeAmount_nonneg : ∀ s q, normalizeAmount s = some q → 0 ≤ q := by
  intro s q h
  simp only [normalizeAmount] at h
  split at h
  · cases h
  · split at h
    · cases h
    · split at h
      · cases h
      · rw [Option.some_inj] at h
        rw [← h]
        exact jsAbs_nonneg _

/-- Every non-null worker amount is non-negative. -/
theorem workerNormalizeAmount_nonneg : ∀ s q, workerNormalizeAmount s = some q → 0 ≤ q := by
  intro s q h
  simp only [workerNormalizeAmount] at h
  split at h
  · cases h
  · split at h
    · cases h
    · rw [Option.some_inj] at h
      rw [← h]
      exact jsAbs_nonneg _

/-- Option-lifted non-negativity, service. -/
theorem normalizeAmountOpt_nonneg : ∀ o q, normalizeAmountOpt o = some q → 0 ≤ q := by
  intro o q h
  cases o with
  | none => cases h
  | some s => exact normalizeAmount_nonneg s q h

/-- Option-lifted non-negativity, worker. -/
theorem workerNormalizeAmountOpt_nonneg : ∀ o q, workerNormalizeAmountOpt o = some q → 0 ≤ q := by
  intro o q h
  cases o with
  | none => cases h
  | some s => exact workerNormalizeAmount_nonneg s q h

/-- C10.  A non-null result of either normalizeAmount is always at
least zero but can equal zero, and a row whose only populated amount
cell holds zero passes validation and becomes a finished transaction
carrying a zero debit. -/
theorem c10_zero_amounts :
    (∀ s q, normalizeAmount s = some q → 0 ≤ q)
    ∧ (∀ s q, workerNormalizeAmount s = some q → 0 ≤ q)
    ∧ normalizeAmount "0" = some 0
    ∧ workerNormalizeAmount "0.00" = some 0
    ∧ parseCsvOrXlsx noFallback zeroRowData = .ok [zeroTxn]
    ∧ zeroTxn.debit = some 0 :=
  ⟨normalizeAmount_nonneg, workerNormalizeAmount_nonneg, by decide, by decide, by rfl, rfl⟩

/-- Witness for C10 at the zero input. -/
theorem c10_witness : (0 : ℚ) ≤ 0 ∧ normalizeAmount "0" = some 0 :=
  ⟨c10_zero_amounts.1 "0" 0 (by decide), c10_zero_amounts.2.2.1⟩

/-- An option that is not none is some. -/
theorem optNotNoneIsSome {α : Type} (o : Option α) (h : ¬ o.isNone = true) :
    o.isSome = true := by
  cases o with
  | none => exact absurd rfl h
  | some a => rfl

/-- The worker row-amounts pair is componentwise non-negative. -/
theorem workerRowAmounts_nonneg (row : Row) (hm : HeaderMap) :
    (∀ q, (workerRowAmounts row hm).1 = some q → 0 ≤ q)
    ∧ (∀ q, (workerRowAmounts row hm).2 = some q → 0 ≤ q) := by
  unfold workerRowAmounts
  split
  · exact ⟨workerNormalizeAmountOpt_nonneg _, workerNormalizeAmountOpt_nonneg _⟩
  · split
    · dsimp only
      split
      · split
        · constructor
          · intro q hq
            rw [Option.some_inj] at hq
            rename_i amount ha _
            rw [← hq]
            exact workerNormalizeAmount_nonneg _ _ ha
          · intro q hq
            cases hq
        · constructor
          · intro q hq
            cases hq
          · intro q hq
            rw [Option.some_inj] at hq
            rename_i amount ha _
            rw [← hq]
            exact workerNormalizeAmount_nonneg _ _ ha
      · exact ⟨fun q hq => Option.noConfusion hq, fun q hq => Option.noConfusion hq⟩
    · exact ⟨fun q hq => Option.noConfusion hq, fun q hq => Option.noConfusion hq⟩

/-- The service row-amounts pair is componentwise non-negative. -/
theorem serviceRowAmounts_nonneg (row : Row) (hm : HeaderMap) :
    (∀ q, (serviceRowAmounts row hm).1 = some q → 0 ≤ q)
    ∧ (∀ q, (serviceRowAmounts row hm).2 = some q → 0 ≤ q) := by
  unfold serviceRowAmounts
  split
  · exact ⟨normalizeAmountOpt_nonneg _, normalizeAmountOpt_nonneg _⟩
  · split
    · dsimp only
      split
      · split
        · constructor
          · intro q hq
            rw [Option.some_inj] at hq
            rename_i amount ha _
            rw [← hq]
            exact normalizeAmount_nonneg _ _ ha
          · intro q hq
            cases hq
        · constructor
          · intro q hq
            cases hq
          · intro q hq
            rw [Option.some_inj] at hq
            rename_i amount ha _
            rw [← hq]
            exact normalizeAmount_nonneg _ _ ha
      · exact ⟨fun q hq => Option.noConfusion hq, fun q hq => Option.noConfusion hq⟩
    · exact ⟨fun q hq => Option.noConfusion hq, fun q hq => Option.noConfusion hq⟩

/-- Every transaction the worker row mapper keeps has at least one
amount, and non-negative amounts. -/
theorem mapRowToTransaction_amountsOk (f : String → Option String) (row : Row)
    (hm : HeaderMap) (t : Txn) (h : mapRowToTransaction f row hm = some t) : amountsOk t := by
  have hn := workerRowAmounts_nonneg row hm
  unfold mapRowToTransaction at h
  rcases ha : workerRowAmounts row hm with ⟨debit, credit⟩
  rw [ha] at h hn
  simp only at h
  split at h
  · cases h
  · split at h
    · rw [Option.some_inj] at h
      rename_i hcond
      rw [← h]
      exact ⟨hcond.2, hn.1, hn.2⟩
    · cases h

/-- Every transaction the service csv row mapper keeps has at least
one amount, and non-negative amounts. -/
theorem csvMapRow_amountsOk (f : String → Option String) (row : Row)
    (hm : HeaderMap) (t : Txn) (h : csvMapRow f row hm = some t) : amountsOk t := by
  have hn := serviceRowAmounts_nonneg row hm
  unfold csvMapRow at h
  rcases ha : serviceRowAmounts row hm with ⟨debit, credit⟩
  rw [ha] at h hn
  simp only at h
  split at h
  · cases h
  · split at h
    · cases h
    · split at h
      · cases h
      · split at h
        · cases h
        · rw [Option.some_inj] at h
          rename_i hamt
          rw [← h]
          refine ⟨?_, hn.1, hn.2⟩
          rcases Decidable.not_and_iff_or_not.mp hamt with hd | hc
          · exact Or.inl (optNotNoneIsSome _ hd)
          · exact Or.inr (optNotNoneIsSome _ hc)

/-- Every transaction the service text flush keeps has at least one
amount, and non-negative amounts. -/
theorem flushService_amountsOk (f : String → Option String) (cols : List ColDef)
    (buf : List String) (t : Txn) (h : flushService f cols buf = some t) : amountsOk t := by
  unfold flushService at h
  split at h
  · cases h
  · dsimp only at h
    split at h
    · cases h
    · split at h <;> split at h <;>
        first
          | (rename_i hcond
             rw [Option.some_inj] at h
             rw [← h]
             exact ⟨hcond.2, normalizeAmountOpt_nonneg _, normalizeAmountOpt_nonneg _⟩)
          | cases h

/-- Every transaction the worker text flush keeps has at least one
amount, and non-negative amounts. -/
theorem flushWorker_amountsOk (f : String → Option String) (cols : List ColDef)
    (buf : List String) (t : Txn) (h : flushWorker f cols buf = some t) : amountsOk t := by
  unfold flushWorker at h
  split at h
  · cases h
  · dsimp only at h
    split at h
    · cases h
    · split at h
      · rename_i hcond
        rw [Option.some_inj] at h
        rw [← h]
        exact ⟨hcond.2, workerNormalizeAmountOpt_nonneg _, workerNormalizeAmountOpt_nonneg _⟩
      · cases h

/-- Any transaction the line-walking loop emits was in the initial
accumulator or came out of a flush. -/
theorem mem_bufAssemble (gate : String → Bool) (flush : List String → Option Txn) :
    ∀ (lines buf acc : List _) (t : Txn), t ∈ bufAssemble gate flush lines buf acc →
      t ∈ acc ∨ ∃ b, flush b = some t := by
  intro lines
  induction lines with
  | nil =>
    intro buf acc t ht
    simp only [bufAssemble] at ht
    rcases List.mem_append.mp ht with h | h
    · exact Or.inl h
    · right
      refine ⟨buf, ?_⟩
      cases hf : flush buf with
      | none => rw [hf] at h; cases h
      | some u => rw [hf] at h; simp at h; rw [h]
  | cons line rest ih =>
    intro buf acc t ht
    simp only [bufAssemble] at ht
    by_cases hg : gate line = true
    · rw [if_pos hg] at ht
      rcases ih _ _ t ht with h | h
      · rcases List.mem_append.mp h with h2 | h2
        · exact Or.inl h2
        · right
          refine ⟨buf, ?_⟩
          cases hf : flush buf with
          | none => rw [hf] at h2; cases h2
          | some u => rw [hf] at h2; simp at h2; rw [h2]
      · exact Or.inr h
    · rw [if_neg hg] at ht
      by_cases hb : !buf.isEmpty
      · rw [if_pos hb] at ht
        exact ih _ _ t ht
      · rw [if_neg hb] at ht
        exact ih _ _ t ht

/-- C1 amended.  Every finished transaction of the CSV/XLSX row
mapping (worker and service) and of the two free-text assemblers has
at least one of debit/credit non-null, and every present amount is
non-negative; the code does not force exclusivity or strict
positivity. -/
theorem c1_amended_at_least_one_amount :
    (∀ (f : String → Option String) (data : List Row) (ts : List Txn) (t : Txn),
      parseCsvOrXlsx f data = .ok ts → t ∈ ts → amountsOk t)
    ∧ (∀ (f : String → Option String) (rawHeaders : List String) (rows : List Row)
        (ts : List Txn) (t : Txn), parseCsv f rawHeaders rows = .ok ts → t ∈ ts → amountsOk t)
    ∧ (∀ (f : String → Option String) (text : String) (t : Txn),
        t ∈ parseTextContent f text → amountsOk t)
    ∧ (∀ (f : String → Option String) (text : String) (t : Txn),
        t ∈ workerParseTextContent f text → amountsOk t) := by
  refine ⟨?_, ?_, ?_, ?_⟩
  · intro f data ts t hok hmem
    unfold parseCsvOrXlsx at hok
    split at hok
    · cases hok
    · rw [Except.ok.injEq] at hok
      rw [← hok] at hmem
      rw [List.reduceOption_mem_iff] at hmem
      rcases List.mem_map.mp hmem with ⟨row, _, hrow⟩
      exact mapRowToTransaction_amountsOk f row _ t hrow
  · intro f rawHeaders rows ts t hok hmem
    unfold parseCsv at hok
    dsimp only at hok
    split at hok
    · cases hok
    · split at hok
      · cases hok
      · rw [Except.ok.injEq] at hok
        rw [← hok] at hmem
        rw [List.reduceOption_mem_iff] at hmem
        rcases List.mem_map.mp hmem with ⟨row, _, hrow⟩
        exact csvMapRow_amountsOk f row _ t hrow
  · intro f text t hmem
    unfold parseTextContent at hmem
    dsimp only at hmem
    split at hmem
    · cases hmem
    · split at hmem
      · cases hmem
      · split at hmem
        · cases hmem
        · rcases mem_bufAssemble _ _ _ _ _ t hmem with h | ⟨b, hb⟩
          · cases h
          · exact flushService_amountsOk f _ b t hb
  · intro f text t hmem
    unfold workerParseTextContent at hmem
    dsimp only at hmem
    split at hmem
    · cases hmem
    · split at hmem
      · cases hmem
      · split at hmem
        · cases hmem
        · rcases mem_bufAssemble _ _ _ _ _ t hmem with h | ⟨b, hb⟩
          · cases h
          · exact flushWorker_amountsOk f _ b t hb

/-- Counterexample to C1: a CSV row with both debit and credit cells
populated is kept by the pipeline with both fields non-null, and a
zero-debit row is kept with a zero debit, so neither mutual
exclusivity nor strict positivity holds. -/
theorem c1_counterexample :
    (parseCsvOrXlsx noFallback bothRowData = .ok [bothTxn] ∧ ¬ exactlyOnePositive bothTxn)
    ∧ (parseCsvOrXlsx noFallback zeroRowData = .ok [zeroTxn] ∧ ¬ exactlyOnePositive zeroTxn) := by
  refine ⟨⟨by rfl, ?_⟩, ⟨by rfl, ?_⟩⟩
  · intro h
    rcases h with ⟨q, _, _, hnone⟩ | ⟨q, _, _, hnone⟩ <;> cases hnone
  · intro h
    rcases h with ⟨q, hq, hpos, _⟩ | ⟨q, hq, _, _⟩
    · rw [show zeroTxn.debit = some 0 from rfl, Option.some_inj] at hq
      rw [← hq] at hpos
      exact lt_irrefl 0 hpos
    · cases hq

/-- Witness for C1 amended at the zero-debit pipeline row. -/
theorem c1_witness : amountsOk zeroTxn :=
  c1_amended_at_least_one_amount.1 noFallback zeroRowData [zeroTxn] zeroTxn (by rfl) (by simp)

/-- Folding batch steps from any initial result prepends that result
componentwise (files are independent and their outcomes appended in
order). -/
theorem batchFold_init (a : Adapters) (c : List CustomRule) (s1 : String → String)
    (r : Option ℚ → String) :
    ∀ (files : List IngestFile) (init : ParsingResult),
      files.foldl (batchStep a c s1 r) init
        = ⟨init.transactions ++ (processBatch a c s1 r files).transactions,
           init.errors ++ (processBatch a c s1 r files).errors⟩ := by
  intro files
  induction files with
  | nil =>
    intro init
    simp [processBatch]
  | cons f fs ih =>
    intro init
    have hP : processBatch a c s1 r (f :: fs)
        = ⟨(batchStep a c s1 r ⟨[], []⟩ f).transactions
             ++ (processBatch a c s1 r fs).transactions,
           (batchStep a c s1 r ⟨[], []⟩ f).errors ++ (processBatch a c s1 r fs).errors⟩ := by
      unfold processBatch
      rw [List.foldl_cons, ih (batchStep a c s1 r ⟨[], []⟩ f)]
      rfl
    rw [List.foldl_cons, ih (batchStep a c s1 r init f), hP]
    cases hw : workerProcessFile a c s1 r f with
    | ok ts => simp [batchStep, hw, List.append_assoc]
    | error e => simp [batchStep, hw, List.append_assoc]

/-- An unsupported extension makes the worker dispatch throw the
not-supported error. -/
theorem unsupported_dispatch (a : Adapters) (file : IngestFile)
    (h : extOf file.name ∉ (["pdf", "csv", "txt", "xlsx", "xls"] : List String)) :
    workerDispatch a file
      = .error ("File type \"." ++ extOf file.name ++ "\" is not supported.") := by
  unfold workerDispatch
  split
  all_goals first
    | rfl
    | (rename_i heq
       exact absurd (by rw [heq]; decide) h)

/-- An unsupported extension makes the per-file worker processing
reject with the not-supported error. -/
theorem unsupported_processFile (a : Adapters) (c : List CustomRule) (s1 : String → String)
    (r : Option ℚ → String) (file : IngestFile)
    (h : extOf file.name ∉ (["pdf", "csv", "txt", "xlsx", "xls"] : List String)) :
    workerProcessFile a c s1 r file
      = .error ("File type \"." ++ extOf file.name ++ "\" is not supported.") := by
  unfold workerProcessFile
  rw [unsupported_dispatch a file h]

/-- C8 amended.  In the worker-based parseFiles pipeline a file with
an unsupported extension contributes no transactions but does add one
entry to the errors list (the worker throws the not-supported error,
which the aggregator records per file); the other files of the batch
are processed exactly as they would be without it, and a batch of at
most five files is accepted. -/
theorem c8_amended_unsupported_error_entry :
    (∀ (a : Adapters) (customRules : List CustomRule) (sha1 : String → String)
        (render : Option ℚ → String) (fs1 fs2 : List IngestFile) (file : IngestFile),
      extOf file.name ∉ (["pdf", "csv", "txt", "xlsx", "xls"] : List String) →
      processBatch a customRules sha1 render (fs1 ++ file :: fs2)
        = ⟨(processBatch a customRules sha1 render fs1).transactions
             ++ (processBatch a customRules sha1 render fs2).transactions,
           (processBatch a customRules sha1 render fs1).errors
             ++ ⟨file.name, "File type \"." ++ extOf file.name ++ "\" is not supported."⟩
             :: (processBatch a customRules sha1 render fs2).errors⟩)
    ∧ (∀ (a : Adapters) (customRules : List CustomRule) (sha1 : String → String)
        (render : Option ℚ → String) (files : List IngestFile), files.length ≤ 5 →
        parseFiles a customRules sha1 render files
          = .ok (processBatch a customRules sha1 render files)) := by
  constructor
  · intro a c s1 r fs1 fs2 file h
    show (fs1 ++ file :: fs2).foldl (batchStep a c s1 r) ⟨[], []⟩ = _
    rw [List.foldl_append]
    rw [show fs1.foldl (batchStep a c s1 r) ⟨[], []⟩ = processBatch a c s1 r fs1 from rfl]
    rw [List.foldl_cons]
    have hstep : batchStep a c s1 r (processBatch a c s1 r fs1) file
        = ⟨(processBatch a c s1 r fs1).transactions,
           (processBatch a c s1 r fs1).errors
             ++ [⟨file.name, "File type \"." ++ extOf file.name ++ "\" is not supported."⟩]⟩ := by
      unfold batchStep
      rw [unsupported_processFile a c s1 r file h]
    rw [hstep, batchFold_init]
    simp [List.append_assoc]
  · intro a c s1 r files hlen
    unfold parseFiles
    rw [if_neg (by omega)]

/-- Counterexample to C8: in a two-file batch whose second file has the
unsupported docx extension, the batch result of the worker-based
pipeline carries an error entry named after that file, so the file is
not skipped with only a warning. -/
theorem c8_counterexample :
    ¬ (∀ (a : Adapters) (customRules : List CustomRule) (sha1 : String → String)
        (render : Option ℚ → String) (files : List IngestFile) (file : IngestFile),
        file ∈ files → extOf file.name ∉ (["pdf", "csv", "txt", "xlsx", "xls"] : List String) →
        ∀ e ∈ (processBatch a customRules sha1 render files).errors, e.fileName ≠ file.name) := by
  intro hclaim
  have h2 := hclaim exAdapters [] (fun s => s) (fun _ => "n") [⟨"a.csv"⟩, ⟨"b.docx"⟩] ⟨"b.docx"⟩
    (by decide) (by decide)
  have herr : (processBatch exAdapters [] (fun s => s) (fun _ => "n")
        [⟨"a.csv"⟩, ⟨"b.docx"⟩]).errors
      = [⟨"b.docx", "File type \".docx\" is not supported."⟩] := by rfl
  exact h2 ⟨"b.docx", "File type \".docx\" is not supported."⟩
    (by rw [herr]; exact List.mem_singleton.mpr rfl) rfl

/-- Witness for C8 amended: the concrete two-file batch. -/
theorem c8_witness :
    processBatch exAdapters [] (fun s => s) (fun _ => "n") ([⟨"a.csv"⟩] ++ ⟨"b.docx"⟩ :: [])
      = ⟨(processBatch exAdapters [] (fun s => s) (fun _ => "n") [⟨"a.csv"⟩]).transactions
           ++ (processBatch exAdapters [] (fun s => s) (fun _ => "n") []).transactions,
         (processBatch exAdapters [] (fun s => s) (fun _ => "n") [⟨"a.csv"⟩]).errors
           ++ ⟨"b.docx", "File type \"." ++ extOf "b.docx" ++ "\" is not supported."⟩
           :: (processBatch exAdapters [] (fun s => s) (fun _ => "n") []).errors⟩ :=
  c8_amended_unsupported_error_entry.1 exAdapters [] (fun s => s) (fun _ => "n")
    [⟨"a.csv"⟩] [] ⟨"b.docx"⟩ (by decide)

/-- Putting a record whose id is already present replaces in place. -/
theorem putTransaction_mem (l : List Transaction) (t u : Transaction)
    (hmem : t ∈ l) (hid : u.id = t.id) :
    putTransaction l u = l.map (fun v => if v.id == t.id then u else v) := by
  unfold putTransaction
  rw [hid]
  rw [if_pos]
  simp only [List.any_eq_true]
  exact ⟨t, hmem, by simp⟩

/-- Folding id-preserving puts of the to-update records over a store
with unique ids updates exactly those records in place. -/
theorem foldPut (upd : Transaction → Transaction) (hid : ∀ t, (upd t).id = t.id) :
    ∀ (todo l : List Transaction),
      (l.map (fun t => t.id)).Nodup →
      (todo.map (fun t => t.id)).Nodup →
      (∀ t ∈ todo, t ∈ l) →
      todo.foldl (fun acc t => putTransaction acc (upd t)) l
        = l.map (fun u => if u ∈ todo then upd u else u) := by
  intro todo
  induction todo with
  | nil =>
    intro l h1 h2 h3
    simp
  | cons t todo' ih =>
    intro l hl htodo hmem
    rw [List.map_cons, List.nodup_cons] at htodo
    obtain ⟨htid, htodo'⟩ := htodo
    have ht_l : t ∈ l := hmem t (List.mem_cons_self t todo')
    rw [List.foldl_cons, putTransaction_mem l t (upd t) ht_l (hid t)]
    have hids : (l.map (fun v => if v.id == t.id then upd t else v)).map (fun v => v.id)
        = l.map (fun v => v.id) := by
      rw [List.map_map]
      apply List.map_congr_left
      intro v hv
      simp only [Function.comp]
      by_cases hvi : v.id = t.id
      · rw [if_pos (beq_iff_eq.mpr hvi), hid t, hvi]
      · rw [if_neg (by simp [hvi])]
    have hmem1 : ∀ s ∈ todo', s ∈ l.map (fun v => if v.id == t.id then upd t else v) := by
      intro s hs
      have hsl : s ∈ l := hmem s (List.mem_cons_of_mem t hs)
      have hsid : s.id ≠ t.id := by
        intro he
        exact htid (he ▸ List.mem_map_of_mem (fun v => v.id) hs)
      exact List.mem_map.mpr ⟨s, hsl, by rw [if_neg (by simp [hsid])]⟩
    rw [ih (l.map (fun v => if v.id == t.id then upd t else v)) (hids ▸ hl) htodo' hmem1]
    rw [List.map_map]
    apply List.map_congr_left
    intro v hv
    simp only [Function.comp]
    by_cases hvi : v.id = t.id
    · have hvt : v = t := memInjOfNodupMap hl v hv t ht_l hvi
      subst hvt
      have hnot : upd v ∉ todo' := fun hin =>
        htid ((hid v) ▸ List.mem_map_of_mem (fun x => x.id) hin)
      simp [hnot]
    · have hvne : v ≠ t := fun he => hvi (he ▸ rfl)
      simp [hvi, hvne, List.mem_cons]

/-- Folding deletes by description removes exactly the records whose
description occurs among the to-delete ones. -/
theorem foldDel_general :
    ∀ (todo l : List CustomRule),
      todo.foldl (fun acc r => deleteRuleByDescription acc r.description) l
        = l.filter (fun r => !(todo.any (fun s => s.description == r.description))) := by
  intro todo
  induction todo with
  | nil =>
    intro l
    simp
  | cons s todo' ih =>
    intro l
    rw [List.foldl_cons]
    show todo'.foldl _ (deleteRuleByDescription l s.description) = _
    rw [ih]
    unfold deleteRuleByDescription
    rw [List.filter_filter]
    apply List.filter_congr
    intro r _
    rw [List.any_cons]
    by_cases h1 : s.description = r.description
    · simp [h1]
    · have h1b : ¬ r.description = s.description := fun he => h1 he.symm
      by_cases h2 : todo'.any (fun u => u.description == r.description)
        <;> simp [h1, h1b, h2]

/-- C9.  deleteCategory reassigns every stored transaction of the
deleted category to Other Expense, deletes every custom rule pointing
at it, removes it from the categories store, and leaves every other
transaction, rule and category unchanged (ids are unique keys of the
transactions store, descriptions of the rules store). -/
theorem c9_deleteCategory_cascade :
    ∀ (db : DB) (c : String),
      (db.transactions.map (fun t => t.id)).Nodup →
      (db.customRules.map (fun r => r.description)).Nodup →
      (deleteCategory db c).transactions
          = db.transactions.map
              (fun t => if t.category = c then { t with category := "Other Expense" } else t)
        ∧ (deleteCategory db c).customRules = db.customRules.filter (fun r => r.category ≠ c)
        ∧ (deleteCategory db c).categories = db.categories.filter (fun n => n ≠ c) := by
  intro db c hT hR
  refine ⟨?_, ?_, rfl⟩
  · show (db.transactions.filter (fun t => t.category == c)).foldl _ db.transactions = _
    rw [foldPut (fun t => { t with category := "Other Expense" }) (fun t => rfl)
      (db.transactions.filter (fun t => t.category == c)) db.transactions hT
      (((List.filter_sublist _).map _).nodup hT)
      (fun t ht => (List.mem_filter.mp ht).1)]
    apply List.map_congr_left
    intro t ht
    by_cases hc : t.category = c
    · rw [if_pos (List.mem_filter.mpr ⟨ht, by simp [hc]⟩), if_pos hc]
    · rw [if_neg (fun hin => hc (by simpa using (List.mem_filter.mp hin).2)), if_neg hc]
  · show (db.customRules.filter (fun r => r.category == c)).foldl _ db.customRules = _
    rw [foldDel_general]
    apply List.filter_congr
    intro r hr
    by_cases hc : r.category = c
    · have hin : r ∈ db.customRules.filter (fun x => x.category == c) :=
        List.mem_filter.mpr ⟨hr, by simp [hc]⟩
      have hany : (db.customRules.filter (fun x => x.category == c)).any
          (fun s => s.description == r.description) = true :=
        List.any_eq_true.mpr ⟨r, hin, by simp⟩
      simp [hany, hc]
    · have hany : (db.customRules.filter (fun x => x.category == c)).any
          (fun s => s.description == r.description) = false := by
        rw [← Bool.not_eq_true, List.any_eq_true]
        intro ⟨u, hu, hud⟩
        have hu2 := List.mem_filter.mp hu
        have hueq : u = r :=
          memInjOfNodupMap hR u hu2.1 r hr (beq_iff_eq.mp hud)
        exact hc (by simpa [hueq] using hu2.2)
      simp [hany, hc]

/-- Witness for C9 at the concrete database and the Food category. -/
theorem c9_witness :
    (deleteCategory exDb "Food").transactions
        = exDb.transactions.map
            (fun t => if t.category = "Food" then { t with category := "Other Expense" } else t)
      ∧ (deleteCategory exDb "Food").customRules
          = exDb.customRules.filter (fun r => r.category ≠ "Food")
      ∧ (deleteCategory exDb "Food").categories
          = exDb.categories.filter (fun n => n ≠ "Food") :=
  c9_deleteCategory_cascade exDb "Food" (by decide) (by decide)

/-- A string differs from the empty string exactly when its character
list is non-empty. -/
theorem strNeEmptyIffData (s : String) : s ≠ "" ↔ s.data ≠ [] := by
  constructor
  · intro h h0
    exact h (by rw [show s = String.mk s.data from rfl, h0])
  · intro h h0
    exact h (by rw [h0])

/-- The head of a dropWhile result does not satisfy the predicate. -/
theorem headDropWhileNot (p : Char → Bool) :
    ∀ (l : List Char) (c : Char), (l.dropWhile p).head? = some c → p c = false := by
  intro l
  induction l with
  | nil => intro c hc; cases hc
  | cons a as ih =>
    intro c hc
    by_cases hp : p a = true
    · rw [List.dropWhile_cons, if_pos hp] at hc
      exact ih c hc
    · rw [List.dropWhile_cons, if_neg hp] at hc
      have : a = c := by simpa using hc
      rw [← this]
      exact Bool.eq_false_iff.mpr hp

/-- The last element of a non-empty suffix is the last element of the
whole list. -/
theorem getLastSuffix {l1 l2 : List Char} (h : l1 <:+ l2) (hne : l1 ≠ []) :
    l1.getLast? = l2.getLast? := by
  obtain ⟨t, rfl⟩ := h
  rw [List.getLast?_append]
  cases hg : l1.getLast? with
  | none => exact absurd (List.getLast?_eq_none_iff.mp hg) hne
  | some c => rfl

/-- The head of a non-empty left factor is the head of the append. -/
theorem headAppendLeft {l1 l2 : List Char} (h : l1 ≠ []) : (l1 ++ l2).head? = l1.head? := by
  rw [List.head?_append]
  cases hh : l1.head? with
  | none => exact absurd (List.head?_eq_none_iff.mp hh) h
  | some c => rfl

/-- The last element of an append with non-empty right factor. -/
theorem getLastAppendRight {l1 l2 : List Char} (h : l2 ≠ []) :
    (l1 ++ l2).getLast? = l2.getLast? := by
  rw [List.getLast?_append]
  cases hg : l2.getLast? with
  | none => exact absurd (List.getLast?_eq_none_iff.mp hg) h
  | some c => rfl

/-- Strings with no whitespace at either edge are trim-invariant. -/
theorem trimNoop (s : String) (h : noEdgeWs s.data) : jsTrim s = s := by
  have h1 : s.data.dropWhile isWs = s.data := by
    cases hd : s.data with
    | nil => rfl
    | cons a as =>
      have ha : isWs a = false := h.1 a (by rw [hd]; rfl)
      simp [List.dropWhile_cons, ha]
  have h2 : s.data.reverse.dropWhile isWs = s.data.reverse := by
    cases hd : s.data.reverse with
    | nil => rfl
    | cons a as =>
      have ha : isWs a = false := by
        apply h.2
        rw [← List.head?_reverse, hd]
        rfl
      simp [List.dropWhile_cons, ha]
  show String.mk (dropTrailingWs (s.data.dropWhile isWs)) = s
  rw [h1]
  unfold dropTrailingWs
  rw [h2, List.reverse_reverse]

/-- A trim-invariant string is unchanged by both edge drops. -/
theorem trimParts (s : String) (h : jsTrim s = s) :
    s.data.dropWhile isWs = s.data ∧ s.data.reverse.dropWhile isWs = s.data.reverse := by
  have hdata : dropTrailingWs (s.data.dropWhile isWs) = s.data := congrArg String.data h
  have hlen1 : (s.data.dropWhile isWs).length ≤ s.data.length := lengthDropWhileLe _ _
  have hlen2 : (dropTrailingWs (s.data.dropWhile isWs)).length
      ≤ (s.data.dropWhile isWs).length := by
    unfold dropTrailingWs
    rw [List.length_reverse]
    calc ((s.data.dropWhile isWs).reverse.dropWhile isWs).length
        ≤ (s.data.dropWhile isWs).reverse.length := lengthDropWhileLe _ _
      _ = (s.data.dropWhile isWs).length := List.length_reverse _
  have hlenEq : (s.data.dropWhile isWs).length = s.data.length := by
    have := congrArg List.length hdata
    omega
  have hA : s.data.dropWhile isWs = s.data :=
    (List.dropWhile_suffix isWs).sublist.eq_of_length hlenEq
  refine ⟨hA, ?_⟩
  rw [hA] at hdata
  unfold dropTrailingWs at hdata
  have h3 := congrArg List.reverse hdata
  rw [List.reverse_reverse] at h3
  exact h3

/-- A trim-invariant string has no whitespace at its edges. -/
theorem trimmedNoEdge (s : String) (h : jsTrim s = s) : noEdgeWs s.data := by
  obtain ⟨h1, h2⟩ := trimParts s h
  constructor
  · intro c hc
    rw [← h1] at hc
    exact headDropWhileNot isWs _ c hc
  · intro c hc
    rw [← List.head?_reverse, ← h2] at hc
    exact headDropWhileNot isWs _ c hc

/-- Trimming is idempotent. -/
theorem trimIdem (y : String) : jsTrim (jsTrim y) = jsTrim y := by
  apply trimNoop
  constructor
  · intro c hc
    rw [show (jsTrim y).data = ((y.data.dropWhile isWs).reverse.dropWhile isWs).reverse from rfl,
      List.head?_reverse] at hc
    have hXne : (y.data.dropWhile isWs).reverse.dropWhile isWs ≠ [] := by
      intro h0
      rw [h0] at hc
      cases hc
    rw [getLastSuffix (List.dropWhile_suffix isWs) hXne, List.getLast?_reverse] at hc
    exact headDropWhileNot isWs _ c hc
  · intro c hc
    rw [show (jsTrim y).data = ((y.data.dropWhile isWs).reverse.dropWhile isWs).reverse from rfl,
      List.getLast?_reverse] at hc
    exact headDropWhileNot isWs _ c hc

/-- Every line the parsers keep is trimmed and non-empty. -/
theorem linesOf_good (text : String) : ∀ x ∈ linesOf text, goodLine x := by
  intro x hx
  unfold linesOf at hx
  have h1 := List.mem_filter.mp hx
  obtain ⟨y, _, hy⟩ := List.mem_map.mp h1.1
  refine ⟨?_, by simpa using h1.2⟩
  rw [← hy]
  exact trimIdem y

/-- A good line has no whitespace at its edges. -/
theorem goodNoEdge (x : String) (h : goodLine x) : noEdgeWs x.data := trimmedNoEdge x h.1

/-- Appending a good line after a space keeps whitespace off the edges. -/
theorem noEdgeAppendWs (d l : String) (hd : d ≠ "") (hdE : noEdgeWs d.data)
    (hl : l ≠ "") (hlE : noEdgeWs l.data) :
    (d ++ " " ++ l) ≠ "" ∧ noEdgeWs (d ++ " " ++ l).data := by
  have hdne : d.data ≠ [] := (strNeEmptyIffData d).mp hd
  have hlne : l.data ≠ [] := (strNeEmptyIffData l).mp hl
  have hdata : (d ++ " " ++ l).data = d.data ++ (' ' :: l.data) := by
    rw [String.data_append, String.data_append]
    simp
  constructor
  · rw [strNeEmptyIffData, hdata]
    simp [hdne]
  · constructor
    · intro c hc
      rw [hdata, headAppendLeft hdne] at hc
      exact hdE.1 c hc
    · intro c hc
      rw [hdata, show d.data ++ (' ' :: l.data) = (d.data ++ [' ']) ++ l.data from by simp,
        getLastAppendRight hlne] at hc
      exact hlE.2 c hc

/-- The space-join of good lines is non-empty with no whitespace at
its edges. -/
theorem joinSpace_goodAux :
    ∀ (ls : List String), ls ≠ [] → (∀ x ∈ ls, goodLine x) →
      joinSpace ls ≠ "" ∧ noEdgeWs (joinSpace ls).data := by
  intro ls
  induction ls with
  | nil => intro h; exact absurd rfl h
  | cons a as ih =>
    intro _ hgood
    cases as with
    | nil =>
      have ha := hgood a (List.mem_cons_self a [])
      exact ⟨ha.2, goodNoEdge a ha⟩
    | cons b bs =>
      have ha := hgood a (List.mem_cons_self a (b :: bs))
      have hrest := ih (by simp) (fun x hx => hgood x (List.mem_cons_of_mem a hx))
      exact noEdgeAppendWs a (joinSpace (b :: bs)) ha.2 (goodNoEdge a ha) hrest.1 hrest.2

/-- The space-join of good lines is trim-invariant. -/
theorem joinTrimNoop (ls : List String) (hne : ls ≠ []) (h : ∀ x ∈ ls, goodLine x) :
    jsTrim (joinSpace ls) = joinSpace ls :=
  trimNoop _ (joinSpace_goodAux ls hne h).2

/-- Left-folding space-appends equals one append of the join. -/
theorem foldlJoin (ls : List String) :
    ∀ (a : String), ls ≠ [] →
      ls.foldl (fun d x => d ++ " " ++ x) a = a ++ " " ++ joinSpace ls := by
  induction ls with
  | nil => intro a h; exact absurd rfl h
  | cons x rest ih =>
    intro a _
    rw [List.foldl_cons]
    cases rest with
    | nil => rfl
    | cons y ys =>
      rw [ih (a ++ " " ++ x) (by simp)]
      simp [joinSpace, String.append_assoc]

/-- Collapsing whitespace preserves a non-whitespace head. -/
theorem collapseAux_head (l : List Char) (c : Char) (hl : l.head? = some c)
    (hc : isWs c = false) : (collapseWsAux false l).head? = some c := by
  cases l with
  | nil => cases hl
  | cons a as =>
    have ha : a = c := by simpa using hl
    subst ha
    simp [collapseWsAux, hc]

/-- Collapsing whitespace preserves a non-whitespace last character. -/
theorem collapseAux_getLast :
    ∀ (l : List Char) (b : Bool) (c : Char), l.getLast? = some c → isWs c = false →
      (collapseWsAux b l).getLast? = some c := by
  intro l
  induction l with
  | nil => intro b c hl; cases hl
  | cons a as ih =>
    intro b c hl hc
    cases as with
    | nil =>
      have ha : a = c := by simpa using hl
      subst ha
      simp [collapseWsAux, hc]
    | cons a2 as2 =>
      rw [List.getLast?_cons_cons] at hl
      by_cases ha : isWs a = true
      · cases b with
        | true =>
          rw [show collapseWsAux true (a :: a2 :: as2) = collapseWsAux true (a2 :: as2) from by
            simp [collapseWsAux, ha]]
          exact ih true c hl hc
        | false =>
          rw [show collapseWsAux false (a :: a2 :: as2) = ' ' :: collapseWsAux true (a2 :: as2)
            from by simp [collapseWsAux, ha]]
          have hres := ih true c hl hc
          cases hz : collapseWsAux true (a2 :: as2) with
          | nil => rw [hz] at hres; cases hres
          | cons w ws =>
            rw [hz] at hres
            rw [List.getLast?_cons_cons]
            exact hres
      · rw [show collapseWsAux b (a :: a2 :: as2) = a :: collapseWsAux false (a2 :: as2) from by
          simp [collapseWsAux, ha]]
        have hres := ih false c hl hc
        cases hz : collapseWsAux false (a2 :: as2) with
        | nil => rw [hz] at hres; cases hres
        | cons w ws =>
          rw [hz] at hres
          rw [List.getLast?_cons_cons]
          exact hres

/-- Collapsing an edge-clean non-empty string yields an edge-clean
non-empty string, hence one that trimming leaves alone. -/
theorem collapseNoEdge (d : String) (hne : d ≠ "") (h : noEdgeWs d.data) :
    jsCollapseWs d ≠ "" ∧ jsTrim (jsCollapseWs d) = jsCollapseWs d := by
  have hdne : d.data ≠ [] := (strNeEmptyIffData d).mp hne
  obtain ⟨a, ha⟩ : ∃ a, d.data.head? = some a := by
    cases hh : d.data.head? with
    | none => exact absurd (List.head?_eq_none_iff.mp hh) hdne
    | some x => exact ⟨x, rfl⟩
  obtain ⟨cl, hcl⟩ : ∃ cl, d.data.getLast? = some cl := by
    cases hgl : d.data.getLast? with
    | none => exact absurd (List.getLast?_eq_none_iff.mp hgl) hdne
    | some x => exact ⟨x, rfl⟩
  have haw : isWs a = false := h.1 a ha
  have hclw : isWs cl = false := h.2 cl hcl
  have hH : (collapseWsAux false d.data).head? = some a := collapseAux_head _ a ha haw
  have hL : (collapseWsAux false d.data).getLast? = some cl :=
    collapseAux_getLast _ false cl hcl hclw
  constructor
  · rw [strNeEmptyIffData]
    show collapseWsAux false d.data ≠ []
    intro h0
    rw [h0] at hH
    cases hH
  · apply trimNoop
    constructor
    · intro c hc
      rw [show (jsCollapseWs d).data = collapseWsAux false d.data from rfl, hH,
        Option.some_inj] at hc
      rw [← hc]
      exact haw
    · intro c hc
      rw [show (jsCollapseWs d).data = collapseWsAux false d.data from rfl, hL,
        Option.some_inj] at hc
      rw [← hc]
      exact hclw

/-- Unfolding one machine step. -/
theorem specRun_cons (gate : String → Bool) (descSpan : String → String)
    (finalize : String → String → Option Txn) (st : List Txn × Option Pending)
    (line : String) (rest : List String) :
    specRun gate descSpan finalize st (line :: rest)
      = specRun gate descSpan finalize (specStep gate descSpan finalize st line) rest := by
  unfold specRun
  rw [List.foldl_cons]

/-- The buffered line-walking loop of the parsers equals the
specification's row-assembly state machine, whenever the flush of a
non-empty buffer is the finalization of the corresponding pending
record. -/
theorem bufAssemble_eq_specRun
    (gate : String → Bool) (flush : List String → Option Txn)
    (descSpan : String → String) (finalize : String → String → Option Txn)
    (good : String → Prop)
    (hnil : flush [] = none)
    (hcompat : ∀ l ls, good l → (∀ x ∈ ls, good x) →
      flush (l :: ls) = finalize l (accumDesc descSpan l ls)) :
    ∀ (lines buf : List String) (acc : List Txn),
      (∀ x ∈ lines, good x) → (∀ x ∈ buf, good x) →
      bufAssemble gate flush lines buf acc
        = specRun gate descSpan finalize (acc, bufToPending descSpan buf) lines := by
  intro lines
  induction lines with
  | nil =>
    intro buf acc _ hbuf
    show acc ++ (flush buf).toList = _
    unfold specRun
    rw [List.foldl_nil]
    cases buf with
    | nil =>
      rw [hnil]
      rfl
    | cons l ls =>
      rw [hcompat l ls (hbuf l (List.mem_cons_self l ls))
        (fun x hx => hbuf x (List.mem_cons_of_mem l hx))]
      rfl
  | cons line rest ih =>
    intro buf acc hlines hbuf
    rw [specRun_cons]
    have hrest : ∀ x ∈ rest, good x := fun x hx => hlines x (List.mem_cons_of_mem line hx)
    show (if gate line then bufAssemble gate flush rest [line] (acc ++ (flush buf).toList)
        else if !buf.isEmpty then bufAssemble gate flush rest (buf ++ [line]) acc
        else bufAssemble gate flush rest buf acc) = _
    by_cases hg : gate line = true
    · rw [if_pos hg]
      have hstep : specStep gate descSpan finalize (acc, bufToPending descSpan buf) line
          = (acc ++ (flush buf).toList, some ⟨line, descSpan line⟩) := by
        unfold specStep
        rw [if_pos hg]
        cases buf with
        | nil => rw [hnil]; rfl
        | cons l ls =>
          rw [hcompat l ls (hbuf l (List.mem_cons_self l ls))
            (fun x hx => hbuf x (List.mem_cons_of_mem l hx))]
          rfl
      rw [hstep,
        ih [line] (acc ++ (flush buf).toList) hrest (fun x hx => by
          rw [List.mem_singleton.mp hx]
          exact hlines line (List.mem_cons_self line rest))]
      rfl
    · rw [if_neg hg]
      cases buf with
      | nil =>
        rw [if_neg (by simp)]
        have hstep : specStep gate descSpan finalize (acc, bufToPending descSpan []) line
            = (acc, bufToPending descSpan []) := by
          unfold specStep
          rw [if_neg hg]
          rfl
        rw [hstep]
        exact ih [] acc hrest (fun x hx => absurd hx (List.not_mem_nil x))
      | cons b bs =>
        rw [if_pos (by simp)]
        have hstep : specStep gate descSpan finalize (acc, bufToPending descSpan (b :: bs)) line
            = (acc, bufToPending descSpan ((b :: bs) ++ [line])) := by
          unfold specStep
          rw [if_neg hg]
          show (acc, some (Pending.mk b (accumDesc descSpan b bs ++ " " ++ line))) = _
          rw [show bufToPending descSpan ((b :: bs) ++ [line])
              = some ⟨b, accumDesc descSpan b (bs ++ [line])⟩ from rfl]
          rw [show accumDesc descSpan b (bs ++ [line])
              = accumDesc descSpan b bs ++ " " ++ line from by
            unfold accumDesc
            rw [List.foldl_append]
            rfl]
        rw [hstep]
        exact ih ((b :: bs) ++ [line]) acc hrest (fun x hx => by
          rcases List.mem_append.mp hx with h1 | h1
          · exact hbuf x h1
          · rw [List.mem_singleton.mp h1]
            exact hlines line (List.mem_cons_self line rest))

/-- The service flush of a non-empty buffer is the service
finalization of the corresponding pending record, for good
continuation lines. -/
theorem flushServiceCompat (f : String → Option String) (cols : List ColDef) (l : String)
    (ls : List String) (hls : ∀ x ∈ ls, goodLine x) :
    flushService f cols (l :: ls)
      = finalizeService f cols l (accumDesc (descSpanService cols) l ls) := by
  cases ls with
  | nil => rfl
  | cons a as =>
    have h1 : jsTrim (joinSpace (a :: as)) = joinSpace (a :: as) :=
      joinTrimNoop _ (by simp) hls
    have h2 : accumDesc (descSpanService cols) l (a :: as)
        = descSpanService cols l ++ " " ++ joinSpace (a :: as) :=
      foldlJoin (a :: as) (descSpanService cols l) (by simp)
    unfold flushService finalizeService
    dsimp only
    rw [h2, if_neg (by simp), h1,
      show descSpanService cols l = jsTrim ((rowOf cols l "description").getD "") from rfl]

/-- The worker flush of a non-empty buffer is the worker finalization
of the corresponding pending record. -/
theorem flushWorkerCompat (f : String → Option String) (cols : List ColDef) (l : String)
    (ls : List String) :
    flushWorker f cols (l :: ls)
      = finalizeWorker f cols l (accumDesc (descSpanWorker cols) l ls) := by
  cases ls with
  | nil => rfl
  | cons a as =>
    unfold flushWorker finalizeWorker
    dsimp only
    rw [show accumDesc (descSpanWorker cols) l (a :: as)
        = descSpanWorker cols l ++ " " ++ joinSpace (a :: as) from
      foldlJoin (a :: as) (descSpanWorker cols l) (by simp)]
    rfl

/-- The service text parser is the row-assembly machine gated on the
date cell normalizing, with the service finalization. -/
theorem parseTextContent_eq_spec (f : String → Option String) (text : String) :
    parseTextContent f text = specParseService f text := by
  unfold parseTextContent specParseService
  dsimp only
  by_cases hE : (linesOf text).isEmpty = true
  · rw [if_pos hE, if_pos hE]
  · rw [if_neg hE, if_neg hE]
    cases hH : findHeaderRow (linesOf text) with
    | none => rfl
    | some ic =>
      rcases ic with ⟨i, cols⟩
      dsimp only
      cases hD : List.find? (fun c => c.key == "date") cols with
      | none => rfl
      | some dateCol =>
        exact bufAssemble_eq_specRun (gateService f dateCol) (flushService f cols)
          (descSpanService cols) (finalizeService f cols) goodLine rfl
          (fun l ls _ hls => flushServiceCompat f cols l ls hls)
          (List.drop (i + 1) (linesOf text)) [] []
          (fun x hx => linesOf_good text x (List.mem_of_mem_drop hx))
          (fun x hx => absurd hx (List.not_mem_nil x))

/-- The worker text parser is the row-assembly machine whose gate also
requires the line to extend past the date column, with the worker
finalization. -/
theorem workerParseTextContent_eq_spec (f : String → Option String) (text : String) :
    workerParseTextContent f text = specParseWorker f text := by
  unfold workerParseTextContent specParseWorker
  dsimp only
  by_cases hE : (linesOf text).length < 2
  · rw [if_pos hE, if_pos hE]
  · rw [if_neg hE, if_neg hE]
    cases hH : findHeaderRow (linesOf text) with
    | none => rfl
    | some ic =>
      rcases ic with ⟨i, cols⟩
      dsimp only
      cases hD : List.find? (fun c => c.key == "date") cols with
      | none => rfl
      | some dateCol =>
        exact bufAssemble_eq_specRun (gateWorker f dateCol) (flushWorker f cols)
          (descSpanWorker cols) (finalizeWorker f cols) (fun _ => True) rfl
          (fun l ls _ _ => flushWorkerCompat f cols l ls)
          (List.drop (i + 1) (linesOf text)) [] []
          (fun x _ => trivial) (fun x _ => trivial)

/-- The rowData description cell of a line is already trimmed. -/
theorem rowOf_trimmed (cols : List ColDef) (line : String) (k : String) :
    jsTrim ((rowOf cols line k).getD "") = (rowOf cols line k).getD "" := by
  unfold rowOf
  cases hf : List.find? (fun c => c.key == k) cols.reverse with
  | none => rfl
  | some c => exact trimIdem _

/-- The service's description assembly (trim the cell, trim the joined
continuations) and the worker's (plain space-join) build the same
string when the cell is already trimmed and the continuation lines are
good. -/
theorem descArgEq (d0 : String) (ls : List String) (hd0 : jsTrim d0 = d0)
    (hls : ∀ x ∈ ls, goodLine x) :
    (if List.isEmpty ls = true then jsTrim d0
     else jsTrim d0 ++ " " ++ jsTrim (joinSpace ls)) = joinSpace (d0 :: ls) := by
  cases ls with
  | nil =>
    show jsTrim d0 = joinSpace [d0]
    rw [hd0]
    rfl
  | cons a as =>
    show jsTrim d0 ++ " " ++ jsTrim (joinSpace (a :: as)) = joinSpace (d0 :: a :: as)
    rw [hd0, joinTrimNoop (a :: as) (by simp) hls]
    rfl

/-- Trimming the collapsed join of a trimmed non-empty cell and good
continuation lines is the identity. -/
theorem collapseJoinNoEdge (d0 : String) (ls : List String) (hd0trim : jsTrim d0 = d0)
    (hd0ne : d0 ≠ "") (hls : ∀ x ∈ ls, goodLine x) :
    jsTrim (jsCollapseWs (joinSpace (d0 :: ls))) = jsCollapseWs (joinSpace (d0 :: ls)) := by
  have hgood : ∀ x ∈ d0 :: ls, goodLine x := by
    intro x hx
    rcases List.mem_cons.mp hx with rfl | hx2
    · exact ⟨hd0trim, hd0ne⟩
    · exact hls x hx2
  have h := joinSpace_goodAux (d0 :: ls) (by simp) hgood
  exact (collapseNoEdge _ h.1 h.2).2

/-- The two flushes agree on a buffer whose first line has a non-empty
description cell and amount cells on which the two normalizeAmount
variants agree, with good continuation lines. -/
theorem flushAgree (f : String → Option String) (cols : List ColDef) (l : String)
    (ls : List String)
    (hdesc : descSpanWorker cols l ≠ "")
    (hdeb : workerNormalizeAmountOpt (rowOf cols l "debit")
      = normalizeAmountOpt (rowOf cols l "debit"))
    (hcred : workerNormalizeAmountOpt (rowOf cols l "credit")
      = normalizeAmountOpt (rowOf cols l "credit"))
    (hls : ∀ x ∈ ls, goodLine x) :
    flushService f cols (l :: ls) = flushWorker f cols (l :: ls) := by
  have hd0ne : (rowOf cols l "description").getD "" ≠ "" := hdesc
  unfold flushService flushWorker
  dsimp only
  rw [hdeb, hcred,
    descArgEq ((rowOf cols l "description").getD "") ls (rowOf_trimmed cols l "description") hls,
    collapseJoinNoEdge ((rowOf cols l "description").getD "") ls
      (rowOf_trimmed cols l "description") hd0ne hls]

/-- The line-walking loop is a congruence in the gate and the flush:
two instantiations agree whenever the gates agree on good lines and
the flushes agree on buffers opened by a gate-passing good line. -/
theorem bufAssemble_congr (g1 g2 : String → Bool) (fl1 fl2 : List String → Option Txn)
    (good : String → Prop)
    (hg : ∀ l, good l → g1 l = g2 l)
    (hnil : fl1 [] = fl2 [])
    (hfl : ∀ l ls, good l → (∀ x ∈ ls, good x) → g1 l = true → fl1 (l :: ls) = fl2 (l :: ls)) :
    ∀ (lines buf : List String) (acc : List Txn),
      (∀ x ∈ lines, good x) →
      (buf = [] ∨ ∃ b bs, buf = b :: bs ∧ good b ∧ (∀ x ∈ bs, good x) ∧ g1 b = true) →
      bufAssemble g1 fl1 lines buf acc = bufAssemble g2 fl2 lines buf acc := by
  intro lines
  induction lines with
  | nil =>
    intro buf acc _ hbuf
    show acc ++ (fl1 buf).toList = acc ++ (fl2 buf).toList
    rcases hbuf with rfl | ⟨b, bs, rfl, hb, hbs, hgb⟩
    · rw [hnil]
    · rw [hfl b bs hb hbs hgb]
  | cons line rest ih =>
    intro buf acc hlines hbuf
    have hlg : good line := hlines line (List.mem_cons_self line rest)
    have hrest : ∀ x ∈ rest, good x := fun x hx => hlines x (List.mem_cons_of_mem line hx)
    show (if g1 line then bufAssemble g1 fl1 rest [line] (acc ++ (fl1 buf).toList)
        else if !buf.isEmpty then bufAssemble g1 fl1 rest (buf ++ [line]) acc
        else bufAssemble g1 fl1 rest buf acc)
      = (if g2 line then bufAssemble g2 fl2 rest [line] (acc ++ (fl2 buf).toList)
        else if !buf.isEmpty then bufAssemble g2 fl2 rest (buf ++ [line]) acc
        else bufAssemble g2 fl2 rest buf acc)
    rw [← hg line hlg]
    by_cases hgl : g1 line = true
    · rw [if_pos hgl, if_pos hgl]
      have hflush : (fl1 buf).toList = (fl2 buf).toList := by
        rcases hbuf with rfl | ⟨b, bs, rfl, hb, hbs, hgb⟩
        · rw [hnil]
        · rw [hfl b bs hb hbs hgb]
      rw [hflush]
      exact ih [line] (acc ++ (fl2 buf).toList) hrest
        (Or.inr ⟨line, [], rfl, hlg, fun x hx => absurd hx (List.not_mem_nil x), hgl⟩)
    · rw [if_neg hgl, if_neg hgl]
      rcases hbuf with rfl | ⟨b, bs, rfl, hb, hbs, hgb⟩
      · rw [if_neg (by simp), if_neg (by simp)]
        exact ih [] acc hrest (Or.inl rfl)
      · rw [if_pos (by simp), if_pos (by simp)]
        exact ih ((b :: bs) ++ [line]) acc hrest
          (Or.inr ⟨b, bs ++ [line], rfl, hb, fun x hx => by
            rcases List.mem_append.mp hx with h1 | h1
            · exact hbs x h1
            · rw [List.mem_singleton.mp h1]; exact hlg, hgb⟩)

/-- C6 (amended): the two parseTextContent implementations return identical
transaction lists on every text satisfying c6Conditions: whenever each data
line passing the starts-new gate also extends past the date column's end,
has a non-empty description cell, and has amount cells on which the two
normalizeAmount variants agree, the service parser and the worker parser
coincide (without these conditions they differ, see the counterexample). -/
theorem c6_conditional_equivalence (f : String → Option String) (text : String)
    (h : c6Conditions f text) :
    parseTextContent f text = workerParseTextContent f text := by
  unfold parseTextContent workerParseTextContent
  dsimp only
  by_cases hE : (linesOf text).isEmpty = true
  · rw [if_pos hE, if_pos (show (linesOf text).length < 2 from by
      rw [List.isEmpty_iff.mp hE]; decide)]
  · rw [if_neg hE]
    by_cases hL : (linesOf text).length < 2
    · rw [if_pos hL]
      cases hH : findHeaderRow (linesOf text) with
      | none => rfl
      | some ic =>
        rcases ic with ⟨i, cols⟩
        dsimp only
        cases hD : List.find? (fun c => c.key == "date") cols with
        | none => rfl
        | some dateCol =>
          rw [show List.drop (i + 1) (linesOf text) = [] from
            List.drop_eq_nil_of_le (by omega)]
          rfl
    · rw [if_neg hL]
      unfold c6Conditions at h
      cases hH : findHeaderRow (linesOf text) with
      | none => rfl
      | some ic =>
        rcases ic with ⟨i, cols⟩
        dsimp only
        simp only [hH] at h
        cases hD : List.find? (fun c => c.key == "date") cols with
        | none => rfl
        | some dateCol =>
          simp only [hD] at h
          exact bufAssemble_congr (gateService f dateCol) (gateWorker f dateCol)
            (flushService f cols) (flushWorker f cols)
            (fun l => goodLine l ∧ (gateService f dateCol l = true →
              l.data.length > dateCol.stop ∧ descSpanWorker cols l ≠ "" ∧
              workerNormalizeAmountOpt (rowOf cols l "debit")
                = normalizeAmountOpt (rowOf cols l "debit") ∧
              workerNormalizeAmountOpt (rowOf cols l "credit")
                = normalizeAmountOpt (rowOf cols l "credit")))
            (fun l hl => by
              have hw : gateWorker f dateCol l
                  = (gateService f dateCol l && decide (l.data.length > dateCol.stop)) := rfl
              by_cases hgs : gateService f dateCol l = true
              · rw [hw, hgs, decide_eq_true ((hl.2 hgs).1)]
                rfl
              · rw [hw, Bool.eq_false_iff.mpr hgs]
                rfl)
            rfl
            (fun l ls hl hls hg1 => flushAgree f cols l ls (hl.2 hg1).2.1
              ((hl.2 hg1).2.2.1) ((hl.2 hg1).2.2.2) (fun x hx => (hls x hx).1))
            (List.drop (i + 1) (linesOf text)) [] []
            (fun x hx => ⟨linesOf_good text x (List.mem_of_mem_drop hx),
              fun hgx => h x hx hgx⟩)
            (Or.inl rfl)

/-- C6 counterexample: the two parseTextContent implementations are not
duplicates of the same logic: on a text whose last line is a bare date not
extending past the date column, the service starts and drops a new record
while the worker folds the line into the previous description, so the
returned transaction lists differ. -/
theorem c6_counterexample :
    ¬ (∀ f text, parseTextContent f text = workerParseTextContent f text) :=
  fun h => absurd (h noFallback divergingText) (by decide)

/-- Witness for the amended C6: the scenario text satisfies the side
conditions and the two parsers agree on it. -/
theorem c6_witness :
    c6Conditions noFallback scenarioText ∧
    parseTextContent noFallback scenarioText
      = workerParseTextContent noFallback scenarioText :=
  ⟨by decide, c6_conditional_equivalence noFallback scenarioText (by decide)⟩

/-- C5 (amended): both text parsers are the row-assembly machine the claim
describes — a line starts a new transaction when its date cell normalizes,
continuation lines are appended space-joined to the pending description,
collapsed, and a group failing validation is dropped — except that the
worker's gate additionally requires the line to extend past the date
column's end and the worker trims the assembled description; the
three-line scenario yields exactly the one specified transaction in both
parsers whenever the Date.parse fallback accepts nothing. -/
theorem c5_row_assembly :
    (∀ f text, parseTextContent f text = specParseService f text) ∧
    (∀ f text, workerParseTextContent f text = specParseWorker f text) ∧
    (∀ f : String → Option String, (∀ s, f s = none) →
      parseTextContent f scenarioText = [scenarioTxn] ∧
      workerParseTextContent f scenarioText = [scenarioTxn]) := by
  refine ⟨parseTextContent_eq_spec, workerParseTextContent_eq_spec, ?_⟩
  intro f hf
  have hfe : f = noFallback := funext fun s => hf s
  rw [hfe]
  exact ⟨by decide, by decide⟩

/-- Witness for the amended C5: with the always-failing fallback the
scenario parses to the one specified transaction in both parsers. -/
theorem c5_witness :
    (∀ s, noFallback s = none) ∧
    parseTextContent noFallback scenarioText = [scenarioTxn] ∧
    workerParseTextContent noFallback scenarioText = [scenarioTxn] :=
  ⟨fun _ => rfl, c5_row_assembly.2.2 noFallback (fun _ => rfl)⟩

/-- C5 counterexample: the worker parser is not the row-assembly machine
gated solely on the date cell normalizing: on a text whose last line is a
bare date not extending past the date column the two disagree. -/
theorem c5_counterexample :
    ¬ (∀ f text, workerParseTextContent f text = specParseWorkerDateGateOnly f text) :=
  fun h => absurd (h noFallback divergingText) (by decide)

end ET
